import Mathlib

/-!
Verification of the Zit version-control engine (src/Zit.mjs).

The filesystem-backed state of a repository is modelled shallowly: the
objects directory is a list of filename-content pairs, the HEAD file is an
optional string (absent or its raw text), and the index file is kept in its
parsed form, a list of staging entries.  The SHA-1 hash used by
Zit.hashObject is modelled as an abstract function parameter H, since the
code relies only on it being a deterministic function of the content.
JSON.stringify is modelled exactly for the two shapes the code serializes: a
commit record in compact form (hashed) and in two-space-indented pretty form
(written to disk).  JSON.parse is modelled by a parser for exactly that
pretty commit format, returning none on any other input.
-/

namespace Zit

/-- One staging-index entry, the JSON object with fields path and hash
written by Zit.updateStagingArea. -/
structure StagingEntry where
  path : String
  hash : String
deriving DecidableEq

/-- A commit record as built by Zit.commit: timeStamp, message, files (the
staged entries at commit time) and parent (a commit id, or null). -/
structure CommitData where
  timeStamp : String
  message : String
  files : List StagingEntry
  parent : Option String
deriving DecidableEq

/-- The persisted state of a repository: the objects directory (filename to
file content), the HEAD file (none when the file is absent), the parsed
index file, and a ghost counter of writeFile calls into the objects
directory, used to state the at-most-one-durable-write property. -/
structure ZitState where
  objects : List (String × String)
  headFile : Option String
  index : List StagingEntry
  objWrites : Nat
deriving DecidableEq

/-- Reading a file from the objects directory: the first entry with the
given name, none when absent. -/
def dirLookup (dir : List (String × String)) (name : String) : Option String :=
  match dir with
  | [] => none
  | kv :: rest => if kv.1 = name then some kv.2 else dirLookup rest name

/-- fs.writeFile into the objects directory: overwrites the file when it
exists, creates it otherwise. -/
def fsWrite (dir : List (String × String)) (name content : String) : List (String × String) :=
  if (dirLookup dir name).isSome then
    dir.map (fun kv => if kv.1 = name then (name, content) else kv)
  else dir ++ [(name, content)]

/-- The state right after Zit.init on a fresh directory: empty objects
directory, HEAD file created with empty content, index file containing the
empty JSON array. -/
def initState : ZitState := ⟨[], some "", [], 0⟩

/-- The code points removed by JavaScript String.prototype.trim: the
ECMAScript WhiteSpace set (tab, vertical tab, form feed, space, no-break
space, zero-width no-break space and the Unicode space separators
U+1680, U+2000..U+200A, U+202F, U+205F, U+3000) together with the
LineTerminator set (line feed, carriage return, line separator U+2028 and
paragraph separator U+2029). -/
def isJsWhitespace (c : Char) : Bool :=
  c.toNat = 0x9 || c.toNat = 0xa || c.toNat = 0xb || c.toNat = 0xc ||
    c.toNat = 0xd || c.toNat = 0x20 || c.toNat = 0xa0 || c.toNat = 0x1680 ||
    (0x2000 ≤ c.toNat && c.toNat ≤ 0x200a) || c.toNat = 0x2028 ||
    c.toNat = 0x2029 || c.toNat = 0x202f || c.toNat = 0x205f ||
    c.toNat = 0x3000 || c.toNat = 0xfeff

/-- JavaScript head.trim(): remove leading and trailing whitespace. -/
def jsTrim (s : String) : String :=
  String.mk (((s.data.dropWhile isJsWhitespace).reverse.dropWhile isJsWhitespace).reverse)

/-- Zit.getCurrentHead: read the HEAD file and return head.trim() || null;
a read failure (absent file) and an empty or all-whitespace content both
yield null (modelled as none). -/
def getCurrentHead (s : ZitState) : Option String :=
  match s.headFile with
  | none => none
  | some h => if jsTrim h = "" then none else some (jsTrim h)

/-- Zit.updateStagingArea on the parsed index: if an entry for the path
exists, the first such entry gets its hash replaced in place; otherwise a
new entry is pushed at the end. -/
def updateStagingArea : List StagingEntry → String → String → List StagingEntry
  | [], filePath, fileHash => [⟨filePath, fileHash⟩]
  | e :: rest, filePath, fileHash =>
    if e.path = filePath then ⟨filePath, fileHash⟩ :: rest
    else e :: updateStagingArea rest filePath fileHash

/-- Zit.add for a file whose content is fileData: hash the content, write
the blob into the objects directory only when no object with that name
exists yet, then upsert the staging entry.  Returns the new state and the
reported file hash. -/
def add (H : String → String) (s : ZitState) (filePath fileData : String) :
    ZitState × String :=
  let fileHash := H fileData
  let s1 :=
    if (dirLookup s.objects fileHash).isSome then s
    else { s with objects := fsWrite s.objects fileHash fileData,
                  objWrites := s.objWrites + 1 }
  ({ s1 with index := updateStagingArea s1.index filePath fileHash }, fileHash)

/-- The user-visible outcome of Zit.commit: either the reported message
that the staging area is empty, or the reported id of the created commit. -/
inductive CommitOutcome where
  | nothingToCommit
  | created (commitId : String)
deriving DecidableEq

/-- One hexadecimal digit as produced by JSON escape sequences. -/
def hexDigitChar (n : Nat) : Char :=
  if n < 10 then Char.ofNat (48 + n) else Char.ofNat (87 + n)

/-- JSON.stringify escaping of a single character. -/
def escChar (c : Char) : String :=
  if c = '"' then "\\\""
  else if c = '\\' then "\\\\"
  else if c = '\x08' then "\\b"
  else if c = '\t' then "\\t"
  else if c = '\n' then "\\n"
  else if c = '\x0c' then "\\f"
  else if c = '\x0d' then "\\r"
  else if c.toNat < 32 then
    "\\u00" ++ String.mk [hexDigitChar (c.toNat / 16), hexDigitChar (c.toNat % 16)]
  else String.mk [c]

/-- JSON.stringify escaping of a whole string body. -/
def escString (s : String) : String :=
  String.mk (s.data.foldr (fun c acc => (escChar c).data ++ acc) [])

/-- A JSON string literal: the escaped body in double quotes. -/
def jsonStr (s : String) : String :=
  "\"" ++ escString s ++ "\""

/-- Compact serialization of one staging entry, as inside
JSON.stringify(commitData). -/
def serializeEntryCompact (e : StagingEntry) : String :=
  "\x7b\"path\":" ++ jsonStr e.path ++ ",\"hash\":" ++ jsonStr e.hash ++ "\x7d"

/-- Compact serialization of a run of entries, comma separated. -/
def serializeEntriesCompact : List StagingEntry → String
  | [] => ""
  | [e] => serializeEntryCompact e
  | e :: es => serializeEntryCompact e ++ "," ++ serializeEntriesCompact es

/-- Compact serialization of the files array. -/
def serializeFilesCompact (es : List StagingEntry) : String :=
  "[" ++ serializeEntriesCompact es ++ "]"

/-- JSON.stringify(commitData): the compact serialization whose hash is the
commit id. -/
def serializeCommitCompact (cd : CommitData) : String :=
  "\x7b\"timeStamp\":" ++ jsonStr cd.timeStamp ++
    ",\"message\":" ++ jsonStr cd.message ++
    ",\"files\":" ++ serializeFilesCompact cd.files ++
    ",\"parent\":" ++ (match cd.parent with
      | none => "null"
      | some p => jsonStr p) ++ "\x7d"

/-- The fixed pieces of the pretty (two-space indented) serialization. -/
def entryLit1 : String := "    \x7b\n      \"path\": "

/-- Separator between the path and hash fields of a pretty entry. -/
def entryLit2 : String := ",\n      \"hash\": "

/-- Closing of a pretty entry. -/
def entryLit3 : String := "\n    \x7d"

/-- Pretty serialization of one staging entry, as inside
JSON.stringify(commitData, null, 2). -/
def serializeEntryPretty (e : StagingEntry) : String :=
  entryLit1 ++ jsonStr e.path ++ entryLit2 ++ jsonStr e.hash ++ entryLit3

/-- Pretty serialization of a nonempty run of entries, separated by a comma
and newline. -/
def serializeEntriesPretty : List StagingEntry → String
  | [] => ""
  | [e] => serializeEntryPretty e
  | e :: es => serializeEntryPretty e ++ ",\n" ++ serializeEntriesPretty es

/-- Pretty serialization of the files array. -/
def serializeFilesPretty (es : List StagingEntry) : String :=
  match es with
  | [] => "[]"
  | _ => "[\n" ++ serializeEntriesPretty es ++ "\n  ]"

/-- Opening of a pretty commit record. -/
def commitLit1 : String := "\x7b\n  \"timeStamp\": "

/-- Separator before the message field. -/
def commitLit2 : String := ",\n  \"message\": "

/-- Separator before the files field. -/
def commitLit3 : String := ",\n  \"files\": "

/-- Separator before the parent field. -/
def commitLit4 : String := ",\n  \"parent\": "

/-- Closing of a pretty commit record. -/
def commitLit5 : String := "\n\x7d"

/-- JSON.stringify(commitData, null, 2): the pretty serialization that
Zit.commit writes into the objects directory. -/
def serializeCommitPretty (cd : CommitData) : String :=
  commitLit1 ++ jsonStr cd.timeStamp ++
    commitLit2 ++ jsonStr cd.message ++
    commitLit3 ++ serializeFilesPretty cd.files ++
    commitLit4 ++ (match cd.parent with
      | none => "null"
      | some p => jsonStr p) ++ commitLit5

/-- Zit.commit with the given message, where now is the value of
new Date().toISOString(): on an empty index it only reports that there is
nothing to commit; otherwise it builds the commit record from the current
index and HEAD, hashes the compact serialization, writes the pretty
serialization under that hash, points HEAD at the hash and clears the
index. -/
def commit (H : String → String) (s : ZitState) (message now : String) :
    ZitState × CommitOutcome :=
  if s.index = [] then (s, CommitOutcome.nothingToCommit)
  else
    let commitData : CommitData := ⟨now, message, s.index, getCurrentHead s⟩
    let commitHash := H (serializeCommitCompact commitData)
    (⟨fsWrite s.objects commitHash (serializeCommitPretty commitData),
      some commitHash, [], s.objWrites + 1⟩,
     CommitOutcome.created commitHash)

/-- Zit.getCommitData: read the object file named by the hash, none when
the read fails. -/
def getCommitData (s : ZitState) (commitHash : String) : Option String :=
  dirLookup s.objects commitHash

/-- Zit.getFileContent: read the object file named by the hash, none when
the read fails. -/
def getFileContent (s : ZitState) (fileHash : String) : Option String :=
  dirLookup s.objects fileHash

/-- Consume an expected literal prefix, returning the remainder, or none
when the input does not start with it. -/
def dropLit : List Char → List Char → Option (List Char)
  | [], s => some s
  | _ :: _, [] => none
  | l :: ls, c :: cs => if l = c then dropLit ls cs else none

/-- True on every character other than the double quote. -/
def notQuote (c : Char) : Bool :=
  decide (c ≠ '"')

/-- Read a JSON string literal consisting of an opening quote, a body free
of quotes and escapes, and a closing quote.  This models JSON.parse on the
string literals produced for escape-free bodies; other inputs are rejected. -/
def readQuoted (s : List Char) : Option (String × List Char) :=
  match s with
  | [] => none
  | c :: rest =>
    if c = '"' then
      match rest.dropWhile notQuote with
      | [] => none
      | _ :: rest2 => some (String.mk (rest.takeWhile notQuote), rest2)
    else none

/-- Parse one pretty-printed staging entry. -/
def parseEntryL (s : List Char) : Option (StagingEntry × List Char) :=
  match dropLit entryLit1.data s with
  | none => none
  | some s1 =>
    match readQuoted s1 with
    | none => none
    | some (p, s2) =>
      match dropLit entryLit2.data s2 with
      | none => none
      | some s3 =>
        match readQuoted s3 with
        | none => none
        | some (h, s4) =>
          match dropLit entryLit3.data s4 with
          | none => none
          | some s5 => some (⟨p, h⟩, s5)

/-- Parse the comma-and-newline-separated entries of a nonempty pretty
files array, up to and including the closing bracket. -/
def parseFilesRest : Nat → List Char → Option (List StagingEntry × List Char)
  | 0, _ => none
  | fuel + 1, s =>
    match parseEntryL s with
    | none => none
    | some (e, s1) =>
      match dropLit (",\n").data s1 with
      | some s2 =>
        match parseFilesRest fuel s2 with
        | none => none
        | some (es, s3) => some (e :: es, s3)
      | none =>
        match dropLit ("\n  ]").data s1 with
        | none => none
        | some s2 => some ([e], s2)

/-- Parse a pretty files array, empty or nonempty. -/
def parseFilesL (fuel : Nat) (s : List Char) : Option (List StagingEntry × List Char) :=
  match dropLit ("[]").data s with
  | some r => some ([], r)
  | none =>
    match dropLit ("[\n").data s with
    | none => none
    | some s1 => parseFilesRest fuel s1

/-- Parse the parent field: the literal null or a commit id string. -/
def parseParentL (s : List Char) : Option (Option String × List Char) :=
  match dropLit ("null").data s with
  | some r => some (none, r)
  | none =>
    match readQuoted s with
    | none => none
    | some (p, r) => some (some p, r)

/-- Parse a whole pretty-printed commit record.  This models JSON.parse as
used by Zit.log and Zit.showCommitDiff, specialized to the exact shape that
JSON.stringify(commitData, null, 2) emits; any other input yields none. -/
def parseCommitL (s : List Char) : Option CommitData :=
  match dropLit commitLit1.data s with
  | none => none
  | some s1 =>
    match readQuoted s1 with
    | none => none
    | some (ts, s2) =>
      match dropLit commitLit2.data s2 with
      | none => none
      | some s3 =>
        match readQuoted s3 with
        | none => none
        | some (msg, s4) =>
          match dropLit commitLit3.data s4 with
          | none => none
          | some s5 =>
            match parseFilesL s5.length s5 with
            | none => none
            | some (files, s6) =>
              match dropLit commitLit4.data s6 with
              | none => none
              | some s7 =>
                match parseParentL s7 with
                | none => none
                | some (par, s8) =>
                  match dropLit commitLit5.data s8 with
                  | none => none
                  | some s9 => if s9 = [] then some ⟨ts, msg, files, par⟩ else none

/-- JSON.parse of a stored commit object. -/
def parseCommit (s : String) : Option CommitData :=
  parseCommitL s.data

/-- The chain walk performed by Zit.log: starting from a commit hash,
repeatedly read the object, parse it as a commit record and move to its
parent; a missing object or unparsable record stops the walk, as does a
null pointer.  The fuel argument bounds the number of iterations so the
walk is total even on cyclic data; Zit.log corresponds to unbounded fuel. -/
def logWalk (s : ZitState) : Nat → Option String → List (String × CommitData)
  | 0, _ => []
  | _ + 1, none => []
  | fuel + 1, some h =>
    match getCommitData s h with
    | none => []
    | some raw =>
      match parseCommit raw with
      | none => []
      | some cd => (h, cd) :: logWalk s fuel cd.parent

/-- Zit.getParentFileContent: find the path among the parent commit's file
entries; the outer none models the undefined returned when the path is not
there, the inner option is the result of getFileContent (null on a failed
read). -/
def getParentFileContent (s : ZitState) (parentCommitData : CommitData)
    (filePath : String) : Option (Option String) :=
  match parentCommitData.files.find? (fun f => decide (f.path = filePath)) with
  | some parentFile => some (getFileContent s parentFile.hash)
  | none => none

/-- The per-file outcome of the Zit.showCommitDiff loop body. -/
inductive FileDiffOutcome where
  | firstCommit
  | parentDataMissing
  | parentDataCorrupt
  | newFile
  | diffed (parentContent currentContent : Option String)
deriving DecidableEq

/-- The branch structure of the Zit.showCommitDiff loop body for one file
entry of a commit record: no parent reports a first commit, a missing or
unparsable parent object is reported and skipped, a path absent from the
parent's files is reported as a new file, and otherwise the line diff of
the parent content against the current content is produced. -/
def showFileDiff (s : ZitState) (commitData : CommitData) (file : StagingEntry) :
    FileDiffOutcome :=
  match commitData.parent with
  | none => FileDiffOutcome.firstCommit
  | some p =>
    match getCommitData s p with
    | none => FileDiffOutcome.parentDataMissing
    | some raw =>
      match parseCommit raw with
      | none => FileDiffOutcome.parentDataCorrupt
      | some parentCommitData =>
        match getParentFileContent s parentCommitData file.path with
        | none => FileDiffOutcome.newFile
        | some parentFileContent =>
          FileDiffOutcome.diffed parentFileContent (getFileContent s file.hash)

/-- Modelled from the spec: the kind of one part of a line-oriented edit
script, as produced by the external diff package's diffLines (not part of
this repository's sources). -/
inductive DiffKind where
  | equal
  | inserted
  | removed
deriving DecidableEq

/-- Modelled from the spec: one part of the edit script, a kind and the
text it covers. -/
structure DiffPart where
  kind : DiffKind
  text : String
deriving DecidableEq

/-- Split a text into lines, each line keeping its trailing newline; the
last line may lack one.  Concatenating the pieces restores the text. -/
def splitLinesAux : List Char → List Char → List String
  | [], acc => if acc = [] then [] else [String.mk acc.reverse]
  | c :: rest, acc =>
    if c = '\n' then String.mk (acc.reverse ++ ['\n']) :: splitLinesAux rest []
    else splitLinesAux rest (c :: acc)

/-- Split a string into newline-terminated lines. -/
def splitLines (s : String) : List String :=
  splitLinesAux s.data []

/-- Length of a longest common subsequence of two line lists. -/
def lcsLen : List String → List String → Nat
  | [], _ => 0
  | _ :: _, [] => 0
  | x :: xs, y :: ys =>
    if x = y then lcsLen xs ys + 1
    else max (lcsLen (x :: xs) ys) (lcsLen xs (y :: ys))
termination_by a b => a.length + b.length

/-- Modelled from the spec: a longest-common-subsequence-based line diff,
one part per line.  Equal lines on both sides are emitted as equal parts;
otherwise the side whose tail admits the longer common subsequence advances,
emitting a removed or inserted part. -/
def diffRec : List String → List String → List DiffPart
  | [], ys => ys.map (fun y => ⟨DiffKind.inserted, y⟩)
  | x :: xs, [] => ⟨DiffKind.removed, x⟩ :: diffRec xs []
  | x :: xs, y :: ys =>
    if x = y then ⟨DiffKind.equal, x⟩ :: diffRec xs ys
    else if lcsLen (x :: xs) ys ≤ lcsLen xs (y :: ys) then
      ⟨DiffKind.removed, x⟩ :: diffRec xs (y :: ys)
    else ⟨DiffKind.inserted, y⟩ :: diffRec (x :: xs) ys
termination_by a b => a.length + b.length

/-- Modelled from the spec: diffLines of the external diff package, the
line-level edit script between two texts. -/
def diffLines (oldText newText : String) : List DiffPart :=
  diffRec (splitLines oldText) (splitLines newText)

/-- Concatenation of a list of strings. -/
def concatStrings (l : List String) : String :=
  l.foldr (fun a b => a ++ b) ""

/-- True on removed parts. -/
def isRemoved (p : DiffPart) : Bool :=
  decide (p.kind = DiffKind.removed)

/-- True on inserted parts. -/
def isInserted (p : DiffPart) : Bool :=
  decide (p.kind = DiffKind.inserted)

/-- The text obtained by concatenating the equal and inserted parts of an
edit script, in order. -/
def reconstructNew (parts : List DiffPart) : String :=
  concatStrings ((parts.filter (fun p => !isRemoved p)).map (fun p => p.text))

/-- The text obtained by concatenating the equal and removed parts of an
edit script, in order. -/
def reconstructOld (parts : List DiffPart) : String :=
  concatStrings ((parts.filter (fun p => !isInserted p)).map (fun p => p.text))

/-- One scripted step of usage: stage a batch of files (given by path and
content, since file reading is outside the model) and then commit with a
message at a timestamp. -/
structure CommitStep where
  adds : List (String × String)
  message : String
  now : String

/-- Run a batch of add operations. -/
def applyAdds (H : String → String) (s : ZitState) (adds : List (String × String)) :
    ZitState :=
  adds.foldl (fun st pc => (add H st pc.1 pc.2).1) s

/-- Run one scripted step: the adds followed by the commit. -/
def runStep (H : String → String) (s : ZitState) (st : CommitStep) : ZitState :=
  (commit H (applyAdds H s st.adds) st.message st.now).1

/-- Run a script of steps from a freshly initialized repository. -/
def runZit (H : String → String) (steps : List CommitStep) : ZitState :=
  steps.foldl (runStep H) initState

/-- The commit record that the commit of a step will build, given the state
the step starts from. -/
def stepRecord (H : String → String) (s : ZitState) (st : CommitStep) : CommitData :=
  ⟨st.now, st.message, (applyAdds H s st.adds).index,
    getCurrentHead (applyAdds H s st.adds)⟩

/-- The commit ids created by a script, oldest first, starting from a given
state. -/
def runIdsFrom (H : String → String) (s : ZitState) : List CommitStep → List String
  | [] => []
  | st :: rest =>
    H (serializeCommitCompact (stepRecord H s st)) :: runIdsFrom H (runStep H s st) rest

/-- The commit ids created by a script run from a fresh repository. -/
def runIds (H : String → String) (steps : List CommitStep) : List String :=
  runIdsFrom H initState steps

/-- The commits created by a script, oldest first, each with its id. -/
def runChainFrom (H : String → String) (s : ZitState) :
    List CommitStep → List (String × CommitData)
  | [] => []
  | st :: rest =>
    (H (serializeCommitCompact (stepRecord H s st)), stepRecord H s st) ::
      runChainFrom H (runStep H s st) rest

/-- The head pointer a chain (stored newest first) starts from. -/
def headId : List (String × CommitData) → Option String
  | [] => none
  | pr :: _ => some pr.1

/-- A chain stored newest first is linked when every record's parent points
at the next, older entry, and the oldest record's parent is null. -/
def linked : List (String × CommitData) → Prop
  | [] => True
  | pr :: rest => pr.2.parent = headId rest ∧ linked rest

/-- Every commit of the chain is present in the objects directory in its
pretty serialization, and that serialization parses back to the record. -/
def chainStored (s : ZitState) (chain : List (String × CommitData)) : Prop :=
  ∀ pr ∈ chain, getCommitData s pr.1 = some (serializeCommitPretty pr.2) ∧
    parseCommit (serializeCommitPretty pr.2) = some pr.2

/-- A character that needs no JSON escaping. -/
def jsonPlainChar (c : Char) : Bool :=
  !(decide (c = '"') || decide (c = '\\') || decide (c.toNat < 32))

/-- A string whose JSON serialization is itself, quoted. -/
def jsonPlainStr (s : String) : Bool :=
  s.data.all jsonPlainChar

/-- A string fit to serve as a commit id in the model: JSON-plain, nonempty
and unchanged by trimming (true of hex digests). -/
def idOK (i : String) : Bool :=
  jsonPlainStr i && decide (i ≠ "") && decide (jsTrim i = i)

/-- All strings of a commit record are JSON-plain, so its serializations
are escape-free. -/
def commitPlain (cd : CommitData) : Bool :=
  jsonPlainStr cd.timeStamp && jsonPlainStr cd.message &&
    cd.files.all (fun e => jsonPlainStr e.path && jsonPlainStr e.hash) &&
    (match cd.parent with
     | none => true
     | some p => jsonPlainStr p)

/-- A scripted step whose strings are JSON-plain and which stages at least
one file. -/
def stepOK (H : String → String) (st : CommitStep) : Bool :=
  !st.adds.isEmpty && jsonPlainStr st.message && jsonPlainStr st.now &&
    st.adds.all (fun pc => jsonPlainStr pc.1 && jsonPlainStr (H pc.2))

/-- The invariant tying a repository state to the chain of commits (newest
first) created so far. -/
structure RunInv (s : ZitState) (chain : List (String × CommitData)) : Prop where
  head_eq : getCurrentHead s = headId chain
  idx_nil : s.index = []
  links : linked chain
  stored : chainStored s chain
  ids_ok : ∀ pr ∈ chain, idOK pr.1 = true

/-- The hash used by Zit in every concrete evaluation below; injectivity of
the real SHA-1 digest on the inputs at hand is mirrored by explicit
distinctness hypotheses where needed. -/
def demoHash (s : String) : String :=
  "h" ++ toString s.data.length

/-- The record of the first demonstration commit. -/
def cd0 : CommitData :=
  ⟨"t0", "first", [⟨"a.txt", "hello"⟩], none⟩

/-- The content-address invariant of the object store: every stored file's
content hashes back to its filename. -/
def storeInv (H : String → String) (s : ZitState) : Prop :=
  ∀ kv ∈ s.objects, H kv.2 = kv.1

theorem mk_data (s : String) : String.mk s.data = s := rfl

theorem data_mk (l : List Char) : (String.mk l).data = l := rfl

theorem data_append (a b : String) : (a ++ b).data = a.data ++ b.data := by
  cases a
  cases b
  rfl

theorem mk_eq_empty {l : List Char} (h : String.mk l = "") : l = [] := by
  have h2 := congrArg String.data h
  exact h2

theorem dirLookup_append_left {l1 : List (String × String)} {k v : String}
    (l2 : List (String × String)) (h : dirLookup l1 k = some v) :
    dirLookup (l1 ++ l2) k = some v := by
  induction l1 with
  | nil => simp [dirLookup] at h
  | cons kv rest ih =>
    by_cases hk : kv.1 = k
    · simp only [dirLookup, if_pos hk] at h
      simp [dirLookup, hk, h]
    · simp only [dirLookup, if_neg hk] at h
      simp only [List.cons_append, dirLookup, if_neg hk]
      exact ih h

theorem dirLookup_append_none {l1 : List (String × String)} {k : String}
    (l2 : List (String × String)) (h : dirLookup l1 k = none) :
    dirLookup (l1 ++ l2) k = dirLookup l2 k := by
  induction l1 with
  | nil => simp
  | cons kv rest ih =>
    by_cases hk : kv.1 = k
    · simp [dirLookup, if_pos hk] at h
    · simp only [dirLookup, if_neg hk] at h
      simp only [List.cons_append, dirLookup, if_neg hk]
      exact ih h

theorem dirLookup_mem {l : List (String × String)} {k v : String}
    (h : dirLookup l k = some v) : (k, v) ∈ l := by
  induction l with
  | nil => simp [dirLookup] at h
  | cons kv rest ih =>
    by_cases hk : kv.1 = k
    · simp only [dirLookup, if_pos hk] at h
      have hv : kv.2 = v := by injection h
      have : kv = (k, v) := by
        cases kv
        simp only [Prod.mk.injEq]
        exact ⟨hk, hv⟩
      rw [← this]
      exact List.mem_cons_self kv rest
    · simp only [dirLookup, if_neg hk] at h
      exact List.mem_cons_of_mem kv (ih h)

theorem fsWrite_absent {l : List (String × String)} {k : String} (v : String)
    (h : dirLookup l k = none) : fsWrite l k v = l ++ [(k, v)] := by
  simp [fsWrite, h]

theorem dirLookup_map_replace {l : List (String × String)} {k : String} (v : String)
    (h : (dirLookup l k).isSome) :
    dirLookup (l.map (fun kv => if kv.1 = k then (k, v) else kv)) k = some v := by
  induction l with
  | nil => simp [dirLookup] at h
  | cons kv rest ih =>
    by_cases hk : kv.1 = k
    · simp [dirLookup, if_pos hk]
    · simp only [dirLookup, if_neg hk] at h
      simp only [List.map_cons, if_neg hk, dirLookup]
      exact ih h

theorem dirLookup_map_replace_other {l : List (String × String)} {k k2 : String} (v : String)
    (hne : k2 ≠ k) :
    dirLookup (l.map (fun kv => if kv.1 = k then (k, v) else kv)) k2 = dirLookup l k2 := by
  induction l with
  | nil => simp [dirLookup]
  | cons kv rest ih =>
    by_cases hk : kv.1 = k
    · have h1 : ¬(k = k2) := fun h => hne h.symm
      have h2 : ¬(kv.1 = k2) := by
        rw [hk]
        exact h1
      simp only [List.map_cons, if_pos hk, dirLookup, if_neg h1, if_neg h2]
      exact ih
    · simp only [List.map_cons, if_neg hk, dirLookup]
      by_cases h2 : kv.1 = k2
      · simp [if_pos h2]
      · simp only [if_neg h2]
        exact ih

theorem fsWrite_lookup_self (l : List (String × String)) (k v : String) :
    dirLookup (fsWrite l k v) k = some v := by
  unfold fsWrite
  by_cases h : (dirLookup l k).isSome
  · rw [if_pos h]
    exact dirLookup_map_replace v h
  · rw [if_neg h]
    have hnone : dirLookup l k = none := by
      cases hx : dirLookup l k
      · rfl
      · rw [hx] at h
        simp at h
    rw [dirLookup_append_none _ hnone]
    simp [dirLookup]

theorem fsWrite_lookup_other {k k2 : String} (l : List (String × String)) (v : String)
    (hne : k2 ≠ k) : dirLookup (fsWrite l k v) k2 = dirLookup l k2 := by
  unfold fsWrite
  by_cases h : (dirLookup l k).isSome
  · rw [if_pos h]
    exact dirLookup_map_replace_other v hne
  · rw [if_neg h]
    cases hx : dirLookup l k2 with
    | some w => exact dirLookup_append_left _ hx
    | none =>
      have hks : ¬(k = k2) := fun hh => hne hh.symm
      have h1 : dirLookup (l ++ [(k, v)]) k2 = dirLookup [(k, v)] k2 :=
        dirLookup_append_none [(k, v)] hx
      rw [h1]
      simp [dirLookup, hks]

theorem updateStagingArea_ne_nil (idx : List StagingEntry) (p h : String) :
    updateStagingArea idx p h ≠ [] := by
  cases idx with
  | nil => simp [updateStagingArea]
  | cons e rest =>
    by_cases he : e.path = p
    · simp [updateStagingArea, if_pos he]
    · simp [updateStagingArea, if_neg he]

theorem updateStagingArea_mem {idx : List StagingEntry} {p h : String} {e : StagingEntry}
    (he : e ∈ updateStagingArea idx p h) : e ∈ idx ∨ e = ⟨p, h⟩ := by
  induction idx with
  | nil =>
    simp [updateStagingArea] at he
    exact Or.inr he
  | cons f rest ih =>
    by_cases hf : f.path = p
    · simp only [updateStagingArea, if_pos hf] at he
      rcases List.mem_cons.mp he with h1 | h1
      · exact Or.inr h1
      · exact Or.inl (List.mem_cons_of_mem f h1)
    · simp only [updateStagingArea, if_neg hf] at he
      rcases List.mem_cons.mp he with h1 | h1
      · exact Or.inl (h1 ▸ List.mem_cons_self f rest)
      · rcases ih h1 with h2 | h2
        · exact Or.inl (List.mem_cons_of_mem f h2)
        · exact Or.inr h2

theorem updateStagingArea_found {idx : List StagingEntry} {p : String} (h : String)
    (hf : ∃ e ∈ idx, e.path = p) :
    ∃ pre e post, idx = pre ++ e :: post ∧ e.path = p ∧ (∀ e2 ∈ pre, e2.path ≠ p) ∧
      updateStagingArea idx p h = pre ++ StagingEntry.mk p h :: post := by
  induction idx with
  | nil => simp at hf
  | cons f rest ih =>
    by_cases hfp : f.path = p
    · refine ⟨[], f, rest, by simp, hfp, by simp, ?_⟩
      simp [updateStagingArea, if_pos hfp]
    · have hf2 : ∃ e ∈ rest, e.path = p := by
        rcases hf with ⟨e, hm, hp⟩
        rcases List.mem_cons.mp hm with h1 | h1
        · exact absurd (h1 ▸ hp) hfp
        · exact ⟨e, h1, hp⟩
      rcases ih hf2 with ⟨pre, e, post, heq, hep, hpre, hupd⟩
      refine ⟨f :: pre, e, post, by simp [heq], hep, ?_, ?_⟩
      · intro e2 hm
        rcases List.mem_cons.mp hm with h1 | h1
        · exact h1 ▸ hfp
        · exact hpre e2 h1
      · simp only [updateStagingArea, if_neg hfp, hupd, List.cons_append]

theorem updateStagingArea_not_found {idx : List StagingEntry} {p : String} (h : String)
    (hf : ∀ e ∈ idx, e.path ≠ p) :
    updateStagingArea idx p h = idx ++ [StagingEntry.mk p h] := by
  induction idx with
  | nil => simp [updateStagingArea]
  | cons f rest ih =>
    have hfp : f.path ≠ p := hf f (List.mem_cons_self f rest)
    simp only [updateStagingArea, if_neg hfp, List.cons_append]
    rw [ih (fun e hm => hf e (List.mem_cons_of_mem f hm))]

theorem updateStagingArea_nodup {idx : List StagingEntry} {p h : String}
    (hn : (idx.map StagingEntry.path).Nodup) :
    ((updateStagingArea idx p h).map StagingEntry.path).Nodup := by
  induction idx with
  | nil => simp [updateStagingArea]
  | cons f rest ih =>
    rw [List.map_cons, List.nodup_cons] at hn
    by_cases hf : f.path = p
    · simp only [updateStagingArea, if_pos hf, List.map_cons, List.nodup_cons]
      exact ⟨hf ▸ hn.1, hn.2⟩
    · simp only [updateStagingArea, if_neg hf, List.map_cons, List.nodup_cons]
      refine ⟨?_, ih hn.2⟩
      intro hmem
      rcases List.mem_map.mp hmem with ⟨e, hme, hpe⟩
      rcases updateStagingArea_mem hme with h1 | h1
      · exact hn.1 (List.mem_map.mpr ⟨e, h1, hpe⟩)
      · exact hf (by rw [← hpe, h1])

theorem updateStagingArea_idem (idx : List StagingEntry) (p h : String) :
    updateStagingArea (updateStagingArea idx p h) p h = updateStagingArea idx p h := by
  induction idx with
  | nil => simp [updateStagingArea]
  | cons f rest ih =>
    by_cases hf : f.path = p
    · simp [updateStagingArea, if_pos hf]
    · simp only [updateStagingArea, if_neg hf, ih]

theorem dropWhile_eq_self {p : Char → Bool} {l : List Char}
    (h : ∀ c ∈ l, p c = false) : l.dropWhile p = l := by
  cases l with
  | nil => rfl
  | cons c rest => simp [List.dropWhile, h c (List.mem_cons_self c rest)]

theorem dropWhile_all {p : Char → Bool} {l : List Char}
    (h : ∀ c ∈ l, p c = true) : l.dropWhile p = [] := by
  induction l with
  | nil => rfl
  | cons c rest ih =>
    simp only [List.dropWhile, h c (List.mem_cons_self c rest)]
    exact ih (fun x hx => h x (List.mem_cons_of_mem c hx))

theorem mem_dropWhile {p : Char → Bool} {l : List Char} {c : Char}
    (hm : c ∈ l) (hc : p c = false) : c ∈ l.dropWhile p := by
  induction l with
  | nil => simp at hm
  | cons d rest ih =>
    rcases List.mem_cons.mp hm with h1 | h1
    · subst h1
      rw [List.dropWhile_cons, hc]
      simp
    · by_cases hd : p d
      · rw [List.dropWhile_cons, hd]
        simp only [ite_true]
        exact ih h1
      · rw [List.dropWhile_cons]
        simp only [hd, ite_false]
        exact List.mem_cons_of_mem d h1

theorem jsTrim_all_ws {s : String} (hw : ∀ c ∈ s.data, isJsWhitespace c = true) :
    jsTrim s = "" := by
  unfold jsTrim
  rw [dropWhile_all hw]
  rfl

theorem jsTrim_no_ws {s : String} (h : ∀ c ∈ s.data, isJsWhitespace c = false) :
    jsTrim s = s := by
  unfold jsTrim
  rw [dropWhile_eq_self h, dropWhile_eq_self (fun c hc => h c (List.mem_reverse.mp hc)),
    List.reverse_reverse]

theorem jsTrim_ne_empty {s : String} (hc : ∃ c ∈ s.data, isJsWhitespace c = false) :
    jsTrim s ≠ "" := by
  rcases hc with ⟨c, hm, hcw⟩
  intro h
  unfold jsTrim at h
  have h4 := mk_eq_empty h
  have h5 : (s.data.dropWhile isJsWhitespace).reverse.dropWhile isJsWhitespace = [] :=
    List.reverse_eq_nil_iff.mp h4
  have h1 : c ∈ (s.data.dropWhile isJsWhitespace) := mem_dropWhile hm hcw
  have h2 : c ∈ (s.data.dropWhile isJsWhitespace).reverse := List.mem_reverse.mpr h1
  have h3 : c ∈ (s.data.dropWhile isJsWhitespace).reverse.dropWhile isJsWhitespace :=
    mem_dropWhile h2 hcw
  rw [h5] at h3
  simp at h3

theorem idOK_spec {i : String} (h : idOK i = true) :
    jsonPlainStr i = true ∧ i ≠ "" ∧ jsTrim i = i := by
  unfold idOK at h
  rw [Bool.and_eq_true, Bool.and_eq_true] at h
  exact ⟨h.1.1, of_decide_eq_true h.1.2, of_decide_eq_true h.2⟩

theorem plain_spec {c : Char} (h : jsonPlainChar c = true) :
    c ≠ '"' ∧ c ≠ '\\' ∧ ¬(c.toNat < 32) := by
  unfold jsonPlainChar at h
  rw [Bool.not_eq_eq_eq_not, Bool.not_true, Bool.or_eq_false_iff, Bool.or_eq_false_iff] at h
  exact ⟨of_decide_eq_false h.1.1, of_decide_eq_false h.1.2, of_decide_eq_false h.2⟩

theorem plain_notQuote {c : Char} (h : jsonPlainChar c = true) : notQuote c = true :=
  decide_eq_true (plain_spec h).1

theorem escChar_plain {c : Char} (h : jsonPlainChar c = true) : escChar c = String.mk [c] := by
  rcases plain_spec h with ⟨hq, hb, hlt⟩
  unfold escChar
  rw [if_neg hq, if_neg hb,
    if_neg (fun hc => hlt (by rw [hc]; decide)),
    if_neg (fun hc => hlt (by rw [hc]; decide)),
    if_neg (fun hc => hlt (by rw [hc]; decide)),
    if_neg (fun hc => hlt (by rw [hc]; decide)),
    if_neg (fun hc => hlt (by rw [hc]; decide)),
    if_neg hlt]

theorem plainStr_spec {s : String} (h : jsonPlainStr s = true) :
    ∀ c ∈ s.data, jsonPlainChar c = true := by
  unfold jsonPlainStr at h
  exact fun c hc => List.all_eq_true.mp h c hc

theorem escString_plain {s : String} (h : jsonPlainStr s = true) : escString s = s := by
  unfold escString
  have hall := plainStr_spec h
  have : ∀ (l : List Char), (∀ c ∈ l, jsonPlainChar c = true) →
      l.foldr (fun c acc => (escChar c).data ++ acc) [] = l := by
    intro l
    induction l with
    | nil => intro _; rfl
    | cons c rest ih =>
      intro hl
      rw [List.foldr_cons, ih (fun x hx => hl x (List.mem_cons_of_mem c hx)),
        escChar_plain (hl c (List.mem_cons_self c rest))]
      rfl
  rw [this s.data hall]

theorem jsonStr_data_plain {s : String} (h : jsonPlainStr s = true) :
    (jsonStr s).data = '"' :: (s.data ++ ['"']) := by
  unfold jsonStr
  rw [data_append, data_append, escString_plain h]
  rfl

theorem dropLit_append (l r : List Char) : dropLit l (l ++ r) = some r := by
  induction l with
  | nil => rfl
  | cons c rest ih => simp [dropLit, ih]

theorem dropLit_self (l : List Char) : dropLit l l = some [] := by
  have h := dropLit_append l []
  rw [List.append_nil] at h
  exact h

theorem dropLit_cons_eq (c : Char) (l s : List Char) :
    dropLit (c :: l) (c :: s) = dropLit l s := by
  simp [dropLit]

theorem dropLit_cons_ne {a b : Char} (l s : List Char) (h : ¬(a = b)) :
    dropLit (a :: l) (b :: s) = none := by
  simp [dropLit, h]

theorem takeWhile_notQuote {l : List Char} (h : ∀ c ∈ l, notQuote c = true) (r : List Char) :
    (l ++ '"' :: r).takeWhile notQuote = l := by
  induction l with
  | nil =>
    have hq : notQuote ('"') = false := by decide
    simp [List.takeWhile, hq]
  | cons c rest ih =>
    rw [List.cons_append, List.takeWhile_cons, h c (List.mem_cons_self c rest)]
    simp only [ite_true]
    rw [ih (fun x hx => h x (List.mem_cons_of_mem c hx))]

theorem dropWhile_notQuote {l : List Char} (h : ∀ c ∈ l, notQuote c = true) (r : List Char) :
    (l ++ '"' :: r).dropWhile notQuote = '"' :: r := by
  induction l with
  | nil =>
    have hq : notQuote ('"') = false := by decide
    simp [List.dropWhile, hq]
  | cons c rest ih =>
    rw [List.cons_append, List.dropWhile_cons, h c (List.mem_cons_self c rest)]
    simp only [ite_true]
    exact ih (fun x hx => h x (List.mem_cons_of_mem c hx))

theorem readQuoted_plain {t : String} (h : jsonPlainStr t = true) (r : List Char) :
    readQuoted ('"' :: (t.data ++ '"' :: r)) = some (t, r) := by
  have hall : ∀ c ∈ t.data, notQuote c = true :=
    fun c hc => plain_notQuote (plainStr_spec h c hc)
  simp only [readQuoted]
  rw [dropWhile_notQuote hall, takeWhile_notQuote hall]
  simp [mk_data]

theorem parseEntryL_pretty {e : StagingEntry} (hp : jsonPlainStr e.path = true)
    (hh : jsonPlainStr e.hash = true) (r : List Char) :
    parseEntryL ((serializeEntryPretty e).data ++ r) = some (e, r) := by
  have hshape : (serializeEntryPretty e).data ++ r =
      entryLit1.data ++ ('"' :: (e.path.data ++ '"' :: (entryLit2.data ++
        ('"' :: (e.hash.data ++ '"' :: (entryLit3.data ++ r)))))) := by
    unfold serializeEntryPretty
    simp [data_append, jsonStr_data_plain hp, jsonStr_data_plain hh, List.append_assoc]
  rw [hshape]
  simp only [parseEntryL, dropLit_append, readQuoted_plain hp, readQuoted_plain hh]

theorem serializeEntriesPretty_cons {e e2 : StagingEntry} (es : List StagingEntry) :
    serializeEntriesPretty (e :: e2 :: es) =
      serializeEntryPretty e ++ ",\n" ++ serializeEntriesPretty (e2 :: es) := by
  rfl


theorem dropLit_commaNl_sep (s : List Char) :
    dropLit [',', '\n'] (',' :: '\n' :: s) = some s := by
  rw [dropLit_cons_eq, dropLit_cons_eq]
  rfl

theorem dropLit_commaNl_nl (s : List Char) :
    dropLit [',', '\n'] ('\n' :: s) = none :=
  dropLit_cons_ne _ _ (by decide)

theorem dropLit_close_sq (s : List Char) :
    dropLit ['\n', ' ', ' ', ']'] ('\n' :: ' ' :: ' ' :: ']' :: s) = some s := by
  have h := dropLit_append ['\n', ' ', ' ', ']'] s
  simpa using h

theorem dropLit_brackets (s : List Char) :
    dropLit ['[', ']'] ('[' :: '\n' :: s) = none := by
  rw [dropLit_cons_eq]
  exact dropLit_cons_ne _ _ (by decide)

theorem dropLit_openBr (s : List Char) :
    dropLit ['[', '\n'] ('[' :: '\n' :: s) = some s := by
  rw [dropLit_cons_eq, dropLit_cons_eq]
  rfl

theorem serializeEntriesPretty_single (e : StagingEntry) :
    serializeEntriesPretty [e] = serializeEntryPretty e := rfl

theorem parseFilesRest_pretty {es : List StagingEntry} (hne : es ≠ [])
    (hplain : ∀ e ∈ es, jsonPlainStr e.path = true ∧ jsonPlainStr e.hash = true) :
    ∀ fuel, es.length ≤ fuel → ∀ r,
      parseFilesRest fuel
        ((serializeEntriesPretty es).data ++ ('\n' :: ' ' :: ' ' :: ']' :: r)) =
        some (es, r) := by
  induction es with
  | nil => exact absurd rfl hne
  | cons e rest ih =>
    intro fuel hfuel r
    have hp := (hplain e (List.mem_cons_self e rest)).1
    have hh := (hplain e (List.mem_cons_self e rest)).2
    cases fuel with
    | zero => simp at hfuel
    | succ f =>
      cases rest with
      | nil =>
        rw [serializeEntriesPretty_single]
        simp only [parseFilesRest, parseEntryL_pretty hp hh, dropLit_commaNl_nl,
          dropLit_close_sq]
      | cons e2 rest2 =>
        have hsh : (serializeEntriesPretty (e :: e2 :: rest2)).data ++
            ('\n' :: ' ' :: ' ' :: ']' :: r) =
            (serializeEntryPretty e).data ++ (',' :: '\n' ::
              ((serializeEntriesPretty (e2 :: rest2)).data ++
                ('\n' :: ' ' :: ' ' :: ']' :: r))) := by
          rw [serializeEntriesPretty_cons]
          simp [data_append, List.append_assoc]
        rw [hsh]
        have hih := ih (by simp) (fun x hx => hplain x (List.mem_cons_of_mem e hx)) f
          (by simp at hfuel ⊢; omega) r
        simp only [parseFilesRest, parseEntryL_pretty hp hh, dropLit_commaNl_sep, hih]

theorem parseFilesL_pretty {es : List StagingEntry}
    (hplain : ∀ e ∈ es, jsonPlainStr e.path = true ∧ jsonPlainStr e.hash = true)
    (fuel : Nat) (hfuel : es.length ≤ fuel) (r : List Char) :
    parseFilesL fuel ((serializeFilesPretty es).data ++ r) = some (es, r) := by
  cases es with
  | nil =>
    have h : (serializeFilesPretty []).data ++ r = (("[]")).data ++ r := rfl
    rw [h]
    simp only [parseFilesL, dropLit_append]
  | cons e rest =>
    have hsh : (serializeFilesPretty (e :: rest)).data ++ r =
        '[' :: '\n' :: ((serializeEntriesPretty (e :: rest)).data ++
          ('\n' :: ' ' :: ' ' :: ']' :: r)) := by
      show (("[\n" ++ serializeEntriesPretty (e :: rest) ++ "\n  ]")).data ++ r = _
      simp [data_append, List.append_assoc]
    rw [hsh]
    simp only [parseFilesL, dropLit_brackets, dropLit_openBr,
      parseFilesRest_pretty (by simp) hplain fuel hfuel r]

theorem parseParentL_null (r : List Char) :
    parseParentL (['n', 'u', 'l', 'l'] ++ r) = some (none, r) := by
  have h : dropLit ((("null"))).data (['n', 'u', 'l', 'l'] ++ r) = some r :=
    dropLit_append _ r
  simp only [parseParentL, h]

theorem parseParentL_str {p : String} (h : jsonPlainStr p = true) (r : List Char) :
    parseParentL ('"' :: (p.data ++ '"' :: r)) = some (some p, r) := by
  have hnull : dropLit ['n', 'u', 'l', 'l'] ('"' :: (p.data ++ '"' :: r)) = none :=
    dropLit_cons_ne _ _ (by decide)
  simp only [parseParentL, hnull, readQuoted_plain h]

theorem serializeEntryPretty_len (e : StagingEntry) :
    1 ≤ (serializeEntryPretty e).data.length := by
  have h1 : (1 : Nat) ≤ entryLit1.data.length := by decide
  unfold serializeEntryPretty
  simp only [data_append, List.length_append]
  omega

theorem serializeEntriesPretty_len :
    ∀ es : List StagingEntry, es.length ≤ (serializeEntriesPretty es).data.length := by
  intro es
  induction es with
  | nil => simp
  | cons e rest ih =>
    cases rest with
    | nil =>
      have h := serializeEntryPretty_len e
      rw [serializeEntriesPretty_single]
      simpa using h
    | cons e2 rest2 =>
      rw [serializeEntriesPretty_cons]
      have h1 := serializeEntryPretty_len e
      simp only [data_append, List.length_append, List.length_cons]
      simp only [List.length_cons] at ih
      omega

theorem serializeFilesPretty_len (es : List StagingEntry) :
    es.length ≤ (serializeFilesPretty es).data.length := by
  cases es with
  | nil => simp
  | cons e rest =>
    have h1 := serializeEntriesPretty_len (e :: rest)
    show (e :: rest).length ≤ (("[\n" ++ serializeEntriesPretty (e :: rest) ++ "\n  ]")).data.length
    simp only [data_append, List.length_append]
    omega

theorem commitPlain_spec {cd : CommitData} (h : commitPlain cd = true) :
    jsonPlainStr cd.timeStamp = true ∧ jsonPlainStr cd.message = true ∧
      (∀ e ∈ cd.files, jsonPlainStr e.path = true ∧ jsonPlainStr e.hash = true) ∧
      (∀ p, cd.parent = some p → jsonPlainStr p = true) := by
  unfold commitPlain at h
  simp only [Bool.and_eq_true] at h
  refine ⟨h.1.1.1, h.1.1.2, ?_, ?_⟩
  · intro e he
    have h2 := List.all_eq_true.mp h.1.2 e he
    rw [Bool.and_eq_true] at h2
    exact h2
  · intro p hp
    have h2 := h.2
    rw [hp] at h2
    exact h2

theorem parseCommit_pretty {cd : CommitData} (h : commitPlain cd = true) :
    parseCommit (serializeCommitPretty cd) = some cd := by
  rcases commitPlain_spec h with ⟨hts, hmsg, hfiles, hpar⟩
  unfold parseCommit
  cases hpc : cd.parent with
  | none =>
    have hshape : (serializeCommitPretty cd).data =
        commitLit1.data ++ ('"' :: (cd.timeStamp.data ++ '"' :: (commitLit2.data ++
          ('"' :: (cd.message.data ++ '"' :: (commitLit3.data ++
            ((serializeFilesPretty cd.files).data ++ (commitLit4.data ++
              ((("null")).data ++ commitLit5.data))))))))) := by
      unfold serializeCommitPretty
      rw [hpc]
      simp [data_append, jsonStr_data_plain hts, jsonStr_data_plain hmsg, List.append_assoc]
    rw [hshape]
    have hflen : cd.files.length ≤ ((serializeFilesPretty cd.files).data ++ (commitLit4.data ++
        ((("null")).data ++ commitLit5.data))).length := by
      have h2 := serializeFilesPretty_len cd.files
      simp only [List.length_append]
      omega
    simp only [parseCommitL, dropLit_append, readQuoted_plain hts, readQuoted_plain hmsg,
      parseFilesL_pretty hfiles _ hflen, parseParentL_null, dropLit_self]
    rw [← hpc]
    simp
  | some p =>
    have hp := hpar p hpc
    have hshape : (serializeCommitPretty cd).data =
        commitLit1.data ++ ('"' :: (cd.timeStamp.data ++ '"' :: (commitLit2.data ++
          ('"' :: (cd.message.data ++ '"' :: (commitLit3.data ++
            ((serializeFilesPretty cd.files).data ++ (commitLit4.data ++
              ('"' :: (p.data ++ '"' :: commitLit5.data)))))))))) := by
      unfold serializeCommitPretty
      rw [hpc]
      simp [data_append, jsonStr_data_plain hts, jsonStr_data_plain hmsg,
        jsonStr_data_plain hp, List.append_assoc]
    rw [hshape]
    have hflen : cd.files.length ≤ ((serializeFilesPretty cd.files).data ++ (commitLit4.data ++
        ('"' :: (p.data ++ '"' :: commitLit5.data)))).length := by
      have h2 := serializeFilesPretty_len cd.files
      simp only [List.length_append]
      omega
    simp only [parseCommitL, dropLit_append, readQuoted_plain hts, readQuoted_plain hmsg,
      parseFilesL_pretty hfiles _ hflen, parseParentL_str hp, dropLit_self]
    rw [← hpc]
    simp

theorem add_headFile (H : String → String) (s : ZitState) (p c : String) :
    ((add H s p c).1).headFile = s.headFile := by
  unfold add
  by_cases hx : (dirLookup s.objects (H c)).isSome
  · simp [hx]
  · simp [hx]

theorem add_index (H : String → String) (s : ZitState) (p c : String) :
    ((add H s p c).1).index = updateStagingArea s.index p (H c) := by
  unfold add
  by_cases hx : (dirLookup s.objects (H c)).isSome
  · simp [hx]
  · simp [hx]

theorem add_snd (H : String → String) (s : ZitState) (p c : String) :
    (add H s p c).2 = H c := by
  unfold add
  by_cases hx : (dirLookup s.objects (H c)).isSome
  · simp [hx]
  · simp [hx]

theorem add_objects_present {H : String → String} {s : ZitState} {c : String} (p : String)
    (h : (dirLookup s.objects (H c)).isSome) :
    ((add H s p c).1).objects = s.objects := by
  unfold add
  simp [h]

theorem add_objects_absent {H : String → String} {s : ZitState} {c : String} (p : String)
    (h : ¬(dirLookup s.objects (H c)).isSome = true) :
    ((add H s p c).1).objects = s.objects ++ [(H c, c)] := by
  have hnone : dirLookup s.objects (H c) = none := by
    cases hx : dirLookup s.objects (H c)
    · rfl
    · rw [hx] at h
      simp at h
  unfold add
  simp [hnone, fsWrite_absent c hnone]

theorem add_lookup_preserve {H : String → String} {s : ZitState} {k : String}
    (p c : String) (h : (dirLookup s.objects k).isSome) :
    dirLookup ((add H s p c).1.objects) k = dirLookup s.objects k := by
  by_cases hx : (dirLookup s.objects (H c)).isSome
  · rw [add_objects_present p hx]
  · rw [add_objects_absent p hx]
    rcases hv : dirLookup s.objects k with _ | v
    · rw [hv] at h
      simp at h
    · exact dirLookup_append_left _ hv

theorem applyAdds_headFile (H : String → String) :
    ∀ (adds : List (String × String)) (s : ZitState),
      (applyAdds H s adds).headFile = s.headFile := by
  intro adds
  induction adds with
  | nil => intro s; rfl
  | cons pc rest ih =>
    intro s
    show (applyAdds H ((add H s pc.1 pc.2).1) rest).headFile = s.headFile
    rw [ih, add_headFile]

theorem getCurrentHead_congr {s1 s2 : ZitState} (h : s1.headFile = s2.headFile) :
    getCurrentHead s1 = getCurrentHead s2 := by
  unfold getCurrentHead
  rw [h]

theorem applyAdds_head (H : String → String) (adds : List (String × String)) (s : ZitState) :
    getCurrentHead (applyAdds H s adds) = getCurrentHead s :=
  getCurrentHead_congr (applyAdds_headFile H adds s)

theorem applyAdds_lookup_preserve (H : String → String) :
    ∀ (adds : List (String × String)) (s : ZitState) (k : String),
      (dirLookup s.objects k).isSome →
      dirLookup ((applyAdds H s adds).objects) k = dirLookup s.objects k := by
  intro adds
  induction adds with
  | nil => intro s k _; rfl
  | cons pc rest ih =>
    intro s k h
    show dirLookup ((applyAdds H ((add H s pc.1 pc.2).1) rest).objects) k = _
    have h2 : dirLookup ((add H s pc.1 pc.2).1.objects) k = dirLookup s.objects k :=
      add_lookup_preserve pc.1 pc.2 h
    rw [ih _ _ (by rw [h2]; exact h), h2]

theorem applyAdds_index_mem (H : String → String) :
    ∀ (adds : List (String × String)) (s : ZitState) (e : StagingEntry),
      e ∈ (applyAdds H s adds).index →
      e ∈ s.index ∨ ∃ pc ∈ adds, e = StagingEntry.mk pc.1 (H pc.2) := by
  intro adds
  induction adds with
  | nil => intro s e h; exact Or.inl h
  | cons pc rest ih =>
    intro s e h
    have h2 := ih ((add H s pc.1 pc.2).1) e h
    rcases h2 with h2 | h2
    · rw [add_index] at h2
      rcases updateStagingArea_mem h2 with h3 | h3
      · exact Or.inl h3
      · exact Or.inr ⟨pc, List.mem_cons_self pc rest, h3⟩
    · rcases h2 with ⟨pc2, hm, he⟩
      exact Or.inr ⟨pc2, List.mem_cons_of_mem pc hm, he⟩

theorem applyAdds_index_ne (H : String → String) :
    ∀ (adds : List (String × String)) (s : ZitState), adds ≠ [] →
      (applyAdds H s adds).index ≠ [] := by
  intro adds
  induction adds with
  | nil => intro s h; exact absurd rfl h
  | cons pc rest ih =>
    intro s _
    cases rest with
    | nil =>
      show ((add H s pc.1 pc.2).1).index ≠ []
      rw [add_index]
      exact updateStagingArea_ne_nil _ _ _
    | cons pc2 rest2 =>
      show (applyAdds H ((add H s pc.1 pc.2).1) (pc2 :: rest2)).index ≠ []
      exact ih ((add H s pc.1 pc.2).1) (by simp)

theorem commit_eq_of_ne {H : String → String} {s : ZitState} {message now : String}
    (h : ¬(s.index = [])) :
    commit H s message now =
      (⟨fsWrite s.objects
          (H (serializeCommitCompact ⟨now, message, s.index, getCurrentHead s⟩))
          (serializeCommitPretty ⟨now, message, s.index, getCurrentHead s⟩),
        some (H (serializeCommitCompact ⟨now, message, s.index, getCurrentHead s⟩)), [],
        s.objWrites + 1⟩,
       CommitOutcome.created
         (H (serializeCommitCompact ⟨now, message, s.index, getCurrentHead s⟩))) := by
  unfold commit
  rw [if_neg h]

theorem getCurrentHead_of_idOK {s : ZitState} {i : String} (hh : s.headFile = some i)
    (hi : idOK i = true) : getCurrentHead s = some i := by
  rcases idOK_spec hi with ⟨_, hne, htr⟩
  unfold getCurrentHead
  rw [hh]
  show (if jsTrim i = "" then none else some (jsTrim i)) = some i
  rw [htr, if_neg hne]

theorem logWalk_chain :
    ∀ (chain : List (String × CommitData)) (s : ZitState), linked chain →
      chainStored s chain →
      ∀ fuel, chain.length ≤ fuel → logWalk s fuel (headId chain) = chain := by
  intro chain
  induction chain with
  | nil =>
    intro s _ _ fuel _
    cases fuel with
    | zero => rfl
    | succ f => rfl
  | cons pr rest ih =>
    intro s hl hs fuel hfuel
    cases fuel with
    | zero => simp at hfuel
    | succ f =>
      have hst := hs pr (List.mem_cons_self pr rest)
      show logWalk s (f + 1) (some pr.1) = pr :: rest
      simp only [logWalk, hst.1, hst.2, hl.1,
        ih s hl.2 (fun q hq => hs q (List.mem_cons_of_mem pr hq)) f
          (by simp at hfuel ⊢; omega)]

theorem linked_parent_none_count :
    ∀ chain : List (String × CommitData), linked chain → chain ≠ [] →
      ((chain.filter (fun pr => pr.2.parent.isNone)).length = 1) := by
  intro chain
  induction chain with
  | nil => intro _ h; exact absurd rfl h
  | cons pr rest ih =>
    intro hl _
    cases rest with
    | nil =>
      have h1 : pr.2.parent = none := hl.1
      simp [List.filter, h1]
    | cons pr2 rest2 =>
      have h1 : pr.2.parent = some pr2.1 := hl.1
      have h2 := ih hl.2 (by simp)
      simp only [List.filter, h1, Option.isNone_some]
      exact h2

theorem stepOK_spec {H : String → String} {st : CommitStep} (h : stepOK H st = true) :
    st.adds ≠ [] ∧ jsonPlainStr st.message = true ∧ jsonPlainStr st.now = true ∧
      ∀ pc ∈ st.adds, jsonPlainStr pc.1 = true ∧ jsonPlainStr (H pc.2) = true := by
  unfold stepOK at h
  rw [Bool.and_eq_true, Bool.and_eq_true, Bool.and_eq_true] at h
  refine ⟨?_, h.1.1.2, h.1.2, ?_⟩
  · intro hnil
    have h2 := h.1.1.1
    rw [hnil] at h2
    simp at h2
  · intro pc hm
    have h2 := List.all_eq_true.mp h.2 pc hm
    rw [Bool.and_eq_true] at h2
    exact h2

theorem commitPlain_intro {cd : CommitData} (h1 : jsonPlainStr cd.timeStamp = true)
    (h2 : jsonPlainStr cd.message = true)
    (h3 : ∀ e ∈ cd.files, jsonPlainStr e.path = true ∧ jsonPlainStr e.hash = true)
    (h4 : ∀ p, cd.parent = some p → jsonPlainStr p = true) : commitPlain cd = true := by
  unfold commitPlain
  rw [Bool.and_eq_true, Bool.and_eq_true, Bool.and_eq_true]
  refine ⟨⟨⟨h1, h2⟩, ?_⟩, ?_⟩
  · rw [List.all_eq_true]
    intro e he
    rw [Bool.and_eq_true]
    exact h3 e he
  · cases hpc : cd.parent with
    | none => rfl
    | some p => exact h4 p hpc

theorem runStep_eq {H : String → String} {s : ZitState} {st : CommitStep}
    (h : ¬((applyAdds H s st.adds).index = [])) :
    runStep H s st =
      ⟨fsWrite (applyAdds H s st.adds).objects
          (H (serializeCommitCompact (stepRecord H s st)))
          (serializeCommitPretty (stepRecord H s st)),
        some (H (serializeCommitCompact (stepRecord H s st))), [],
        (applyAdds H s st.adds).objWrites + 1⟩ := by
  unfold runStep
  rw [commit_eq_of_ne h]
  rfl

theorem runInv_steps (H : String → String) :
    ∀ (steps : List CommitStep) (s : ZitState) (chain : List (String × CommitData)),
      RunInv s chain →
      (∀ st ∈ steps, stepOK H st = true) →
      (∀ i ∈ runIdsFrom H s steps, idOK i = true) →
      (chain.map Prod.fst ++ runIdsFrom H s steps).Nodup →
      RunInv (List.foldl (runStep H) s steps)
        ((runChainFrom H s steps).reverse ++ chain) := by
  intro steps
  induction steps with
  | nil =>
    intro s chain hinv _ _ _
    simpa [runChainFrom] using hinv
  | cons st rest ih =>
    intro s chain hinv hsteps hids hnodup
    rcases stepOK_spec (hsteps st (List.mem_cons_self st rest)) with
      ⟨hadds, hmsg, hnow, haddsOK⟩
    have hs1idx : ¬((applyAdds H s st.adds).index = []) :=
      applyAdds_index_ne H st.adds s hadds
    have hs2 := runStep_eq hs1idx
    have hcidOK : idOK (H (serializeCommitCompact (stepRecord H s st))) = true :=
      hids _ (List.mem_cons_self _ _)
    have hparent_plain : ∀ p, (stepRecord H s st).parent = some p →
        jsonPlainStr p = true := by
      intro p hp
      have hhead : headId chain = some p := by
        rw [← hinv.head_eq, ← applyAdds_head H st.adds s]
        exact hp
      cases chain with
      | nil => simp [headId] at hhead
      | cons pr rest2 =>
        have hpr : pr.1 = p := by
          simp [headId] at hhead
          exact hhead
        have h2 := hinv.ids_ok pr (List.mem_cons_self pr rest2)
        rw [← hpr]
        exact (idOK_spec h2).1
    have hfiles_plain : ∀ e ∈ (stepRecord H s st).files,
        jsonPlainStr e.path = true ∧ jsonPlainStr e.hash = true := by
      intro e he
      have hmem := applyAdds_index_mem H st.adds s e he
      rcases hmem with hmem | hmem
      · rw [hinv.idx_nil] at hmem
        simp at hmem
      · rcases hmem with ⟨pc, hpc, hepc⟩
        rcases haddsOK pc hpc with ⟨hp1, hp2⟩
        rw [hepc]
        exact ⟨hp1, hp2⟩
    have hplainCd : commitPlain (stepRecord H s st) = true :=
      commitPlain_intro hnow hmsg hfiles_plain hparent_plain
    have hfresh : H (serializeCommitCompact (stepRecord H s st)) ∉ chain.map Prod.fst := by
      intro hmem
      rcases List.nodup_append.mp hnodup with ⟨_, _, hdisj⟩
      exact hdisj hmem (List.mem_cons_self _ _)
    have hInv2 : RunInv (runStep H s st)
        ((H (serializeCommitCompact (stepRecord H s st)), stepRecord H s st) :: chain) := by
      refine ⟨?_, ?_, ⟨?_, hinv.links⟩, ?_, ?_⟩
      · rw [hs2]
        exact getCurrentHead_of_idOK rfl hcidOK
      · rw [hs2]
      · show (stepRecord H s st).parent = headId chain
        show getCurrentHead (applyAdds H s st.adds) = headId chain
        rw [applyAdds_head]
        exact hinv.head_eq
      · intro pr hm
        rcases List.mem_cons.mp hm with hm | hm
        · rw [hm, hs2]
          constructor
          · exact fsWrite_lookup_self _ _ _
          · exact parseCommit_pretty hplainCd
        · have hst := hinv.stored pr hm
          have hne : pr.1 ≠ H (serializeCommitCompact (stepRecord H s st)) := by
            intro he
            exact hfresh (he ▸ List.mem_map_of_mem Prod.fst hm)
          constructor
          · rw [hs2]
            show dirLookup (fsWrite (applyAdds H s st.adds).objects _ _) pr.1 = _
            rw [fsWrite_lookup_other _ _ hne]
            rw [applyAdds_lookup_preserve H st.adds s pr.1 (by
              show (getCommitData s pr.1).isSome = true
              rw [hst.1]
              rfl)]
            exact hst.1
          · exact hst.2
      · intro pr hm
        rcases List.mem_cons.mp hm with hm | hm
        · rw [hm]
          exact hcidOK
        · exact hinv.ids_ok pr hm
    have hnodup2 : ((((H (serializeCommitCompact (stepRecord H s st))), stepRecord H s st)
        :: chain).map Prod.fst ++ runIdsFrom H (runStep H s st) rest).Nodup := by
      have hperm := (@List.perm_middle String
        (H (serializeCommitCompact (stepRecord H s st)))
        (chain.map Prod.fst)
        (runIdsFrom H (runStep H s st) rest))
      exact hperm.nodup hnodup
    have hres := ih (runStep H s st)
      ((H (serializeCommitCompact (stepRecord H s st)), stepRecord H s st) :: chain)
      hInv2
      (fun st2 hm => hsteps st2 (List.mem_cons_of_mem st hm))
      (fun i hm => hids i (List.mem_cons_of_mem _ hm))
      hnodup2
    have heq : (runChainFrom H s (st :: rest)).reverse ++ chain =
        (runChainFrom H (runStep H s st) rest).reverse ++
          ((H (serializeCommitCompact (stepRecord H s st)), stepRecord H s st) :: chain) := by
      show ((H (serializeCommitCompact (stepRecord H s st)), stepRecord H s st) ::
        runChainFrom H (runStep H s st) rest).reverse ++ chain = _
      simp [List.reverse_cons, List.append_assoc]
    rw [heq]
    exact hres

theorem mk_append (a b : List Char) : String.mk a ++ String.mk b = String.mk (a ++ b) := rfl

theorem append_empty_str (s : String) : s ++ "" = s := by
  cases s with
  | mk l =>
    show String.mk (l ++ []) = String.mk l
    rw [List.append_nil]

theorem concatStrings_cons (a : String) (l : List String) :
    concatStrings (a :: l) = a ++ concatStrings l := rfl

theorem splitLinesAux_concat :
    ∀ (l acc : List Char), concatStrings (splitLinesAux l acc) =
      String.mk (acc.reverse ++ l) := by
  intro l
  induction l with
  | nil =>
    intro acc
    by_cases ha : acc = []
    · simp [splitLinesAux, ha, concatStrings]
    · simp only [splitLinesAux, if_neg ha]
      rw [concatStrings_cons]
      show String.mk acc.reverse ++ "" = _
      rw [append_empty_str, List.append_nil]
  | cons c rest ih =>
    intro acc
    by_cases hc : c = '\n'
    · simp only [splitLinesAux, if_pos hc]
      rw [concatStrings_cons, ih [], mk_append]
      rw [hc]
      simp
    · simp only [splitLinesAux, if_neg hc]
      rw [ih (c :: acc)]
      simp

theorem concat_splitLines (s : String) : concatStrings (splitLines s) = s := by
  unfold splitLines
  rw [splitLinesAux_concat]
  show String.mk s.data = s
  exact mk_data s

theorem reconstructNew_cons_eq (t : String) (ps : List DiffPart) :
    reconstructNew (DiffPart.mk DiffKind.equal t :: ps) = t ++ reconstructNew ps := rfl

theorem reconstructNew_cons_ins (t : String) (ps : List DiffPart) :
    reconstructNew (DiffPart.mk DiffKind.inserted t :: ps) = t ++ reconstructNew ps := rfl

theorem reconstructNew_cons_rem (t : String) (ps : List DiffPart) :
    reconstructNew (DiffPart.mk DiffKind.removed t :: ps) = reconstructNew ps := rfl

theorem reconstructOld_cons_eq (t : String) (ps : List DiffPart) :
    reconstructOld (DiffPart.mk DiffKind.equal t :: ps) = t ++ reconstructOld ps := rfl

theorem reconstructOld_cons_ins (t : String) (ps : List DiffPart) :
    reconstructOld (DiffPart.mk DiffKind.inserted t :: ps) = reconstructOld ps := rfl

theorem reconstructOld_cons_rem (t : String) (ps : List DiffPart) :
    reconstructOld (DiffPart.mk DiffKind.removed t :: ps) = t ++ reconstructOld ps := rfl

theorem reconstructNew_ins_map (ys : List String) :
    reconstructNew (ys.map (fun y => DiffPart.mk DiffKind.inserted y)) = concatStrings ys := by
  induction ys with
  | nil => rfl
  | cons y rest ih =>
    rw [List.map_cons, reconstructNew_cons_ins, ih, concatStrings_cons]

theorem reconstructOld_ins_map (ys : List String) :
    reconstructOld (ys.map (fun y => DiffPart.mk DiffKind.inserted y)) = "" := by
  induction ys with
  | nil => rfl
  | cons y rest ih =>
    rw [List.map_cons, reconstructOld_cons_ins, ih]

theorem diffRec_reconstructNew :
    ∀ xs ys : List String, reconstructNew (diffRec xs ys) = concatStrings ys := by
  intro xs ys
  induction xs, ys using diffRec.induct with
  | case1 x => rw [diffRec, reconstructNew_ins_map]
  | case2 head tail ih => rw [diffRec, reconstructNew_cons_rem, ih]
  | case3 xs y ys ih =>
    rw [diffRec, if_pos rfl, reconstructNew_cons_eq, ih, concatStrings_cons]
  | case4 x xs y ys hxy hle ih =>
    rw [diffRec, if_neg hxy, if_pos hle, reconstructNew_cons_rem, ih]
  | case5 x xs y ys hxy hle ih =>
    rw [diffRec, if_neg hxy, if_neg hle, reconstructNew_cons_ins, ih, concatStrings_cons]

theorem diffRec_reconstructOld :
    ∀ xs ys : List String, reconstructOld (diffRec xs ys) = concatStrings xs := by
  intro xs ys
  induction xs, ys using diffRec.induct with
  | case1 x =>
    rw [diffRec, reconstructOld_ins_map]
    rfl
  | case2 head tail ih =>
    rw [diffRec, reconstructOld_cons_rem, ih, concatStrings_cons]
  | case3 xs y ys ih =>
    rw [diffRec, if_pos rfl, reconstructOld_cons_eq, ih, concatStrings_cons]
  | case4 x xs y ys hxy hle ih =>
    rw [diffRec, if_neg hxy, if_pos hle, reconstructOld_cons_rem, ih, concatStrings_cons]
  | case5 x xs y ys hxy hle ih =>
    rw [diffRec, if_neg hxy, if_neg hle, reconstructOld_cons_ins, ih]

theorem lookup_isSome_of_mem_keys {l : List (String × String)} {k : String}
    (h : k ∈ l.map Prod.fst) : (dirLookup l k).isSome = true := by
  induction l with
  | nil => simp at h
  | cons kv rest ih =>
    by_cases hk : kv.1 = k
    · simp [dirLookup, hk]
    · simp only [List.map_cons, List.mem_cons] at h
      rcases h with h | h
      · exact absurd h.symm hk
      · simp only [dirLookup, if_neg hk]
        exact ih h

theorem filter_key_zero {l : List (String × String)} {k : String}
    (h : k ∉ l.map Prod.fst) :
    (l.filter (fun kv => decide (kv.1 = k))).length = 0 := by
  induction l with
  | nil => rfl
  | cons kv rest ih =>
    simp only [List.map_cons, List.mem_cons] at h
    push_neg at h
    have hk : ¬(kv.1 = k) := fun he => h.1 he.symm
    simp only [List.filter_cons]
    rw [if_neg (by simp [hk])]
    exact ih (fun hm => h.2 hm)

theorem filter_key_one {l : List (String × String)} {k : String}
    (hn : (l.map Prod.fst).Nodup) (h : (dirLookup l k).isSome = true) :
    (l.filter (fun kv => decide (kv.1 = k))).length = 1 := by
  induction l with
  | nil => simp [dirLookup] at h
  | cons kv rest ih =>
    rw [List.map_cons, List.nodup_cons] at hn
    by_cases hk : kv.1 = k
    · simp only [List.filter_cons]
      rw [if_pos (by simp [hk]), List.length_cons]
      have hz : (rest.filter (fun kv2 => decide (kv2.1 = k))).length = 0 :=
        filter_key_zero (fun hm => hn.1 (hk ▸ hm))
      omega
    · simp only [dirLookup, if_neg hk] at h
      simp only [List.filter_cons]
      rw [if_neg (by simp [hk])]
      exact ih hn.2 h

theorem add_lookup_self (H : String → String) (s : ZitState) (p c : String) :
    (dirLookup ((add H s p c).1.objects) (H c)).isSome = true := by
  by_cases hx : (dirLookup s.objects (H c)).isSome
  · rw [add_objects_present p hx]
    exact hx
  · rw [add_objects_absent p hx]
    have hnone : dirLookup s.objects (H c) = none := by
      cases hv : dirLookup s.objects (H c)
      · rfl
      · rw [hv] at hx
        simp at hx
    rw [dirLookup_append_none _ hnone]
    simp [dirLookup]

theorem add_objWrites_present {H : String → String} {s : ZitState} {c : String} (p : String)
    (h : (dirLookup s.objects (H c)).isSome) :
    ((add H s p c).1).objWrites = s.objWrites := by
  unfold add
  simp [h]

theorem add_objWrites_le (H : String → String) (s : ZitState) (p c : String) :
    ((add H s p c).1).objWrites ≤ s.objWrites + 1 := by
  unfold add
  by_cases hx : (dirLookup s.objects (H c)).isSome
  · simp [hx]
  · simp [hx]

theorem runChainFrom_length (H : String → String) :
    ∀ (steps : List CommitStep) (s : ZitState),
      (runChainFrom H s steps).length = steps.length := by
  intro steps
  induction steps with
  | nil => intro s; rfl
  | cons st rest ih =>
    intro s
    show (runChainFrom H s (st :: rest)).length = rest.length + 1
    rw [runChainFrom]
    simp [ih (runStep H s st)]

theorem stageFold_nodup (ops : List (String × String)) :
    ∀ idx : List StagingEntry, (idx.map StagingEntry.path).Nodup →
      (((ops.foldl (fun idx2 ph => updateStagingArea idx2 ph.1 ph.2) idx)).map
        StagingEntry.path).Nodup := by
  induction ops with
  | nil => intro idx h; exact h
  | cons ph rest ih =>
    intro idx h
    exact ih _ (updateStagingArea_nodup h)

/-- C3: idempotent, deduplicated storage.  Adding a content once reports its
digest; adding the same content again (under any path) reports the same
digest, leaves the objects directory byte-for-byte unchanged and performs no
further durable write; on a directory with distinct filenames, exactly one
object file holds the digest after the first add, and the first add performs
at most one durable write. -/
theorem zitC3_add_dedup (H : String → String) (s : ZitState) (p1 p2 c : String)
    (hnodup : (s.objects.map Prod.fst).Nodup) :
    (add H s p1 c).2 = H c ∧
    (add H (add H s p1 c).1 p2 c).2 = H c ∧
    ((add H (add H s p1 c).1 p2 c).1).objects = ((add H s p1 c).1).objects ∧
    ((add H (add H s p1 c).1 p2 c).1).objWrites = ((add H s p1 c).1).objWrites ∧
    (((add H s p1 c).1).objects.filter (fun kv => decide (kv.1 = H c))).length = 1 ∧
    ((add H s p1 c).1).objWrites ≤ s.objWrites + 1 := by
  have hself := add_lookup_self H s p1 c
  refine ⟨add_snd H s p1 c, add_snd H _ p2 c, add_objects_present p2 hself,
    add_objWrites_present p2 hself, ?_, add_objWrites_le H s p1 c⟩
  by_cases hx : (dirLookup s.objects (H c)).isSome
  · rw [add_objects_present p1 hx]
    exact filter_key_one hnodup hx
  · rw [add_objects_absent p1 hx]
    have hnone : dirLookup s.objects (H c) = none := by
      cases hv : dirLookup s.objects (H c)
      · rfl
      · rw [hv] at hx
        simp at hx
    have hz : (s.objects.filter (fun kv => decide (kv.1 = H c))).length = 0 :=
      filter_key_zero (fun hm => by
        have h2 := lookup_isSome_of_mem_keys hm
        rw [hnone] at h2
        simp at h2)
    rw [List.filter_append, List.length_append, hz]
    simp

/-- C3 witness: the dedup properties hold concretely for adding the content
hello twice to a fresh repository under the identity hash. -/
theorem zitC3_witness :
    (add id initState "a.txt" "hello").2 = id "hello" ∧
    (add id (add id initState "a.txt" "hello").1 "a.txt" "hello").2 = id "hello" ∧
    ((add id (add id initState "a.txt" "hello").1 "a.txt" "hello").1).objects =
      ((add id initState "a.txt" "hello").1).objects ∧
    ((add id (add id initState "a.txt" "hello").1 "a.txt" "hello").1).objWrites =
      ((add id initState "a.txt" "hello").1).objWrites ∧
    (((add id initState "a.txt" "hello").1).objects.filter
      (fun kv => decide (kv.1 = id "hello"))).length = 1 ∧
    ((add id initState "a.txt" "hello").1).objWrites ≤ initState.objWrites + 1 :=
  zitC3_add_dedup id initState "a.txt" "a.txt" "hello" (by simp [initState])

/-- C4: staging upsert.  When an entry for the path exists, the first such
entry is replaced in place by the entry with the new hash; otherwise the new
entry is appended at the end; and any sequence of staging operations starting
from the empty index yields an index whose paths are pairwise distinct. -/
theorem zitC4_staging_upsert :
    (∀ (idx : List StagingEntry) (p h : String),
      ((∃ e ∈ idx, e.path = p) →
        ∃ pre e post, idx = pre ++ e :: post ∧ e.path = p ∧ (∀ e2 ∈ pre, e2.path ≠ p) ∧
          updateStagingArea idx p h = pre ++ StagingEntry.mk p h :: post) ∧
      ((∀ e ∈ idx, e.path ≠ p) →
        updateStagingArea idx p h = idx ++ [StagingEntry.mk p h])) ∧
    (∀ ops : List (String × String),
      (((ops.foldl (fun idx2 ph => updateStagingArea idx2 ph.1 ph.2) [])).map
        StagingEntry.path).Nodup) := by
  constructor
  · intro idx p h
    exact ⟨updateStagingArea_found h, updateStagingArea_not_found h⟩
  · intro ops
    exact stageFold_nodup ops [] (by simp)

/-- C4 witness: restaging the path a with a new hash replaces its single
entry in place. -/
theorem zitC4_witness :
    ∃ pre e post, ([⟨"a", "h1"⟩] : List StagingEntry) = pre ++ e :: post ∧
      e.path = "a" ∧ (∀ e2 ∈ pre, e2.path ≠ "a") ∧
      updateStagingArea [⟨"a", "h1"⟩] "a" "h2" = pre ++ StagingEntry.mk "a" "h2" :: post :=
  (zitC4_staging_upsert.1 [⟨"a", "h1"⟩] "a" "h2").1 ⟨⟨"a", "h1"⟩, by simp, rfl⟩

/-- C5: commit failure atomicity.  Commit reports the nothing-to-commit
condition exactly when the staging index is empty, and in that case it is a
distinguishable reported outcome that leaves the whole state untouched: HEAD
not advanced, staging index not cleared, object store unchanged. -/
theorem zitC5_commit_empty (H : String → String) (s : ZitState) (message now : String) :
    ((commit H s message now).2 = CommitOutcome.nothingToCommit ↔ s.index = []) ∧
    (s.index = [] →
      commit H s message now = (s, CommitOutcome.nothingToCommit) ∧
      (commit H s message now).1.headFile = s.headFile ∧
      (commit H s message now).1.index = s.index ∧
      (commit H s message now).1.objects = s.objects ∧
      (commit H s message now).1.objWrites = s.objWrites) := by
  have hcase : ∀ h : s.index = [], commit H s message now = (s, CommitOutcome.nothingToCommit) := by
    intro h
    unfold commit
    rw [if_pos h]
  constructor
  · constructor
    · intro h
      by_contra hne
      rw [commit_eq_of_ne hne] at h
      simp at h
    · intro h
      rw [hcase h]
  · intro h
    refine ⟨hcase h, ?_, ?_, ?_, ?_⟩ <;> rw [hcase h]

/-- C5 witness: committing on a freshly initialized repository reports the
empty staging area and changes nothing. -/
theorem zitC5_witness :
    commit id initState "m" "t" = (initState, CommitOutcome.nothingToCommit) :=
  ((zitC5_commit_empty id initState "m" "t").2 rfl).1

/-- C10: HEAD reading normalization.  getCurrentHead yields null when the
HEAD file is absent, and when its content is all whitespace (in particular
when empty); otherwise it yields the content trimmed of surrounding
whitespace; consequently a commit made while the HEAD file holds the empty
string (the state left by init) records a null parent. -/
theorem zitC10_head_normalization :
    (∀ s : ZitState, s.headFile = none → getCurrentHead s = none) ∧
    (∀ (s : ZitState) (h : String), s.headFile = some h →
      (∀ c ∈ h.data, isJsWhitespace c = true) → getCurrentHead s = none) ∧
    (∀ (s : ZitState) (h : String), s.headFile = some h →
      (∃ c ∈ h.data, isJsWhitespace c = false) →
      getCurrentHead s = some (jsTrim h) ∧ jsTrim h ≠ "") ∧
    (∀ (H : String → String) (s : ZitState) (message now : String),
      s.headFile = some "" → s.index ≠ [] →
      (commit H s message now).2 = CommitOutcome.created
        (H (serializeCommitCompact (CommitData.mk now message s.index none)))) := by
  have hempty : ∀ s : ZitState, s.headFile = some "" → getCurrentHead s = none := by
    intro s h
    unfold getCurrentHead
    rw [h]
    show (if jsTrim "" = "" then none else some (jsTrim "")) = none
    rw [if_pos (by decide)]
  refine ⟨?_, ?_, ?_, ?_⟩
  · intro s h
    unfold getCurrentHead
    rw [h]
  · intro s h hs hw
    unfold getCurrentHead
    rw [hs]
    show (if jsTrim h = "" then none else some (jsTrim h)) = none
    rw [jsTrim_all_ws hw]
    simp
  · intro s h hs hw
    have hne := jsTrim_ne_empty hw
    refine ⟨?_, hne⟩
    unfold getCurrentHead
    rw [hs]
    show (if jsTrim h = "" then none else some (jsTrim h)) = some (jsTrim h)
    rw [if_neg hne]
  · intro H s message now hh hne
    rw [commit_eq_of_ne hne, hempty s hh]

/-- C10 witness: the normalization cases on concrete states, including a
HEAD file holding only a no-break space and one with surrounding space and
no-break space, and the null parent of a commit made right after
initialization. -/
theorem zitC10_witness :
    getCurrentHead (ZitState.mk [] none [] 0) = none ∧
    getCurrentHead (ZitState.mk [] (some "  ") [] 0) = none ∧
    getCurrentHead (ZitState.mk [] (some "\u00A0") [] 0) = none ∧
    getCurrentHead (ZitState.mk [] (some " a ") [] 0) = some (jsTrim " a ") ∧
    getCurrentHead (ZitState.mk [] (some " a\u00A0") [] 0) = some (jsTrim " a\u00A0") ∧
    (commit (fun _ => "h") (ZitState.mk [] (some "") [⟨"a", "b"⟩] 0) "m" "t").2 =
      CommitOutcome.created
        ((fun _ => "h") (serializeCommitCompact (CommitData.mk "t" "m" [⟨"a", "b"⟩] none))) :=
  ⟨zitC10_head_normalization.1 _ rfl,
   zitC10_head_normalization.2.1 _ "  " rfl (by decide),
   zitC10_head_normalization.2.1 _ "\u00A0" rfl (by decide),
   (zitC10_head_normalization.2.2.1 _ " a " rfl ⟨'a', by decide, by decide⟩).1,
   (zitC10_head_normalization.2.2.1 _ " a\u00A0" rfl ⟨'a', by decide, by decide⟩).1,
   zitC10_head_normalization.2.2.2 (fun _ => "h") _ "m" "t" rfl (by decide)⟩

/-- C1 (failing input): after staging a.txt with content hello and
committing with message first at timestamp t0, taking the hash function to
be the identity (any function of the content that separates the two
serializations behaves alike), HEAD names a stored commit object whose
stored bytes do not hash back to the digest they are stored under: commit
hashes the compact JSON.stringify(commitData) but writes the pretty
JSON.stringify(commitData, null, 2).  The blob objects of the same store do
satisfy the invariant. -/
theorem zitC1_store_mismatch :
    ∃ cid stored,
      getCurrentHead (commit id (add id initState "a.txt" "hello").1 "first" "t0").1 =
        some cid ∧
      getCommitData (commit id (add id initState "a.txt" "hello").1 "first" "t0").1 cid =
        some stored ∧
      id stored ≠ cid ∧
      (∀ kv ∈ ((add id initState "a.txt" "hello").1).objects, id kv.2 = kv.1) :=
  ⟨serializeCommitCompact cd0, serializeCommitPretty cd0,
    by decide, by decide, by decide, by decide⟩

/-- C2 (counterexample): the round trip get(put(T)) == T fails on a
reachable store.  After one commit, adding a file whose content is the
compact serialization of the stored commit record returns that digest, but
reading the digest back yields the pretty serialization of the record, not
the stored text. -/
theorem zitC2_counterexample :
    (add id (commit id (add id initState "a.txt" "hello").1 "first" "t0").1 "evil.txt"
        (serializeCommitCompact cd0)).2 = id (serializeCommitCompact cd0) ∧
    getFileContent
        (add id (commit id (add id initState "a.txt" "hello").1 "first" "t0").1 "evil.txt"
          (serializeCommitCompact cd0)).1
        (id (serializeCommitCompact cd0)) =
      some (serializeCommitPretty cd0) ∧
    serializeCommitPretty cd0 ≠ serializeCommitCompact cd0 := by
  refine ⟨by decide, by decide, by decide⟩

/-- C2 (amended): on any store in which every object's content hashes back
to its filename, and for a collision-free hash, adding a text under any path
returns its digest and reading that digest back returns exactly the text.
Blob-only stores built by add satisfy the premise; stores holding a commit
record do not, which is the counterexample above. -/
theorem zitC2_roundtrip (H : String → String) (s : ZitState) (p T : String)
    (hinv : storeInv H s) (hinj : Function.Injective H) :
    (add H s p T).2 = H T ∧ getFileContent (add H s p T).1 (H T) = some T := by
  refine ⟨add_snd H s p T, ?_⟩
  unfold getFileContent
  by_cases hx : (dirLookup s.objects (H T)).isSome
  · rw [add_objects_present p hx]
    rcases hv : dirLookup s.objects (H T) with _ | v
    · rw [hv] at hx
      simp at hx
    · have hmem := dirLookup_mem hv
      have hvT : v = T := hinj (hinv _ hmem)
      rw [hvT]
  · rw [add_objects_absent p hx]
    have hnone : dirLookup s.objects (H T) = none := by
      cases hv : dirLookup s.objects (H T)
      · rfl
      · rw [hv] at hx
        simp at hx
    rw [dirLookup_append_none _ hnone]
    simp [dirLookup]

/-- C2 witness: the round trip holds concretely on a fresh store under the
identity hash. -/
theorem zitC2_witness :
    (add id initState "w" "hello").2 = id "hello" ∧
    getFileContent (add id initState "w" "hello").1 (id "hello") = some "hello" :=
  zitC2_roundtrip id initState "w" "hello"
    (by intro kv h; simp [initState] at h) (fun a b h => h)

/-- C6: successful commit effects.  On a nonempty staging index, commit
builds the record from the current timestamp, message, staged entries and
the HEAD value read at the start (null when HEAD is empty), computes the
commit id as the hash of the record's compact serialization, stores the
record's serialized form under the commit id, points HEAD at the commit id,
clears the staging index and reports the commit id. -/
theorem zitC6_commit_success (H : String → String) (s : ZitState) (message now : String)
    (hne : s.index ≠ [])
    (hid : idOK (H (serializeCommitCompact
      (CommitData.mk now message s.index (getCurrentHead s)))) = true) :
    ∃ cd cid,
      cd.timeStamp = now ∧ cd.message = message ∧ cd.files = s.index ∧
      cd.parent = getCurrentHead s ∧
      cid = H (serializeCommitCompact cd) ∧
      (commit H s message now).2 = CommitOutcome.created cid ∧
      getCommitData (commit H s message now).1 cid = some (serializeCommitPretty cd) ∧
      getCurrentHead (commit H s message now).1 = some cid ∧
      (commit H s message now).1.index = [] ∧
      (s.headFile = some "" → cd.parent = none) := by
  refine ⟨CommitData.mk now message s.index (getCurrentHead s),
    H (serializeCommitCompact (CommitData.mk now message s.index (getCurrentHead s))),
    rfl, rfl, rfl, rfl, rfl, ?_, ?_, ?_, ?_, ?_⟩
  · rw [commit_eq_of_ne hne]
  · rw [commit_eq_of_ne hne]
    exact fsWrite_lookup_self _ _ _
  · rw [commit_eq_of_ne hne]
    exact getCurrentHead_of_idOK rfl hid
  · rw [commit_eq_of_ne hne]
  · intro hh
    show getCurrentHead s = none
    unfold getCurrentHead
    rw [hh]
    show (if jsTrim "" = "" then none else some (jsTrim "")) = none
    rw [if_pos (by decide)]

/-- C6 witness: the commit effects hold concretely after staging one file,
under a constant hash whose value is a valid id. -/
theorem zitC6_witness :
    ∃ cd cid,
      cd.timeStamp = "t0" ∧ cd.message = "first" ∧
      cd.files = ((add (fun _ => "h") initState "a.txt" "hello").1).index ∧
      cd.parent = getCurrentHead (add (fun _ => "h") initState "a.txt" "hello").1 ∧
      cid = (fun _ => "h") (serializeCommitCompact cd) ∧
      (commit (fun _ => "h") (add (fun _ => "h") initState "a.txt" "hello").1
        "first" "t0").2 = CommitOutcome.created cid ∧
      getCommitData (commit (fun _ => "h") (add (fun _ => "h") initState "a.txt" "hello").1
        "first" "t0").1 cid = some (serializeCommitPretty cd) ∧
      getCurrentHead (commit (fun _ => "h") (add (fun _ => "h") initState "a.txt" "hello").1
        "first" "t0").1 = some cid ∧
      (commit (fun _ => "h") (add (fun _ => "h") initState "a.txt" "hello").1
        "first" "t0").1.index = [] ∧
      (((add (fun _ => "h") initState "a.txt" "hello").1).headFile = some "" →
        cd.parent = none) :=
  zitC6_commit_success (fun _ => "h") (add (fun _ => "h") initState "a.txt" "hello").1
    "first" "t0" (by decide) (by decide)

/-- C8: diff reconstruction laws hold for the spec-modelled LCS line diff:
concatenating the equal and inserted parts restores the new text, and
concatenating the equal and removed parts restores the old text. -/
theorem zitC8_diff_reconstruction (oldText newText : String) :
    reconstructNew (diffLines oldText newText) = newText ∧
    reconstructOld (diffLines oldText newText) = oldText := by
  unfold diffLines
  constructor
  · rw [diffRec_reconstructNew, concat_splitLines]
  · rw [diffRec_reconstructOld, concat_splitLines]

/-- C9: no-prior-version classification.  For a file entry of a commit
record whose parent commit object is present and parses, the per-file diff
is produced exactly when the commit has a parent and the path occurs in the
parent's file set; a commit without parent reports the first commit, a path
absent from the parent's files reports a new file, and in neither of those
cases is a diff computed. -/
theorem zitC9_no_prior_version (s : ZitState) (cd : CommitData) (file : StagingEntry) :
    (cd.parent = none → showFileDiff s cd file = FileDiffOutcome.firstCommit) ∧
    (∀ p raw pcd, cd.parent = some p → getCommitData s p = some raw →
      parseCommit raw = some pcd →
      ((∃ pf ∈ pcd.files, pf.path = file.path) →
        ∃ pf, pcd.files.find? (fun f => decide (f.path = file.path)) = some pf ∧
          showFileDiff s cd file =
            FileDiffOutcome.diffed (getFileContent s pf.hash) (getFileContent s file.hash)) ∧
      ((∀ pf ∈ pcd.files, pf.path ≠ file.path) →
        showFileDiff s cd file = FileDiffOutcome.newFile)) := by
  constructor
  · intro hp
    simp only [showFileDiff, hp]
  · intro p raw pcd hp hraw hparse
    constructor
    · intro hex
      have h1 : (pcd.files.find? (fun f => decide (f.path = file.path))).isSome := by
        rw [List.find?_isSome]
        rcases hex with ⟨pf, hm, hpath⟩
        exact ⟨pf, hm, by simp [hpath]⟩
      rcases Option.isSome_iff_exists.mp h1 with ⟨pf, hpf⟩
      refine ⟨pf, hpf, ?_⟩
      simp only [showFileDiff, getParentFileContent, hp, hraw, hparse, hpf]
    · intro hnone
      have hfind : pcd.files.find? (fun f => decide (f.path = file.path)) = none :=
        List.find?_eq_none.mpr (fun x hx => by simp [hnone x hx])
      simp only [showFileDiff, getParentFileContent, hp, hraw, hparse, hfind]

/-- C9 witness: for a second commit whose parent record is stored and lists
the path, the diff is produced against the parent version. -/
theorem zitC9_witness :
    ∃ pf, (CommitData.mk "t1" "first" [⟨"a.txt", "hb"⟩] none).files.find?
        (fun f => decide (f.path = "a.txt")) = some pf ∧
      showFileDiff
        (ZitState.mk
          [("p1", serializeCommitPretty (CommitData.mk "t1" "first" [⟨"a.txt", "hb"⟩] none)),
           ("hb", "hello")]
          (some "p2") [] 0)
        (CommitData.mk "t2" "second" [⟨"a.txt", "hc"⟩] (some "p1"))
        ⟨"a.txt", "hc"⟩ =
      FileDiffOutcome.diffed
        (getFileContent
          (ZitState.mk
            [("p1", serializeCommitPretty (CommitData.mk "t1" "first" [⟨"a.txt", "hb"⟩] none)),
             ("hb", "hello")]
            (some "p2") [] 0) pf.hash)
        (getFileContent
          (ZitState.mk
            [("p1", serializeCommitPretty (CommitData.mk "t1" "first" [⟨"a.txt", "hb"⟩] none)),
             ("hb", "hello")]
            (some "p2") [] 0) "hc") :=
  ((zitC9_no_prior_version
      (ZitState.mk
        [("p1", serializeCommitPretty (CommitData.mk "t1" "first" [⟨"a.txt", "hb"⟩] none)),
         ("hb", "hello")]
        (some "p2") [] 0)
      (CommitData.mk "t2" "second" [⟨"a.txt", "hc"⟩] (some "p1"))
      ⟨"a.txt", "hc"⟩).2 "p1"
    (serializeCommitPretty (CommitData.mk "t1" "first" [⟨"a.txt", "hb"⟩] none))
    (CommitData.mk "t1" "first" [⟨"a.txt", "hb"⟩] none)
    rfl (by decide) (by decide)).1 ⟨⟨"a.txt", "hb"⟩, by simp, rfl⟩

/-- C7: parent-chain integrity.  For any script of staged-then-committed
steps run from a fresh repository, whose strings are JSON-plain and whose
commit ids are pairwise distinct well-formed ids (true of distinct hex
digests), the walk Zit.log performs from HEAD visits exactly one record per
commit, each record's parent is the previous commit's id, the oldest and
only parentless record closes the chain, and giving the walk any larger
iteration bound returns the same chain, so the walk is finite and
cycle-free. -/
theorem zitC7_parent_chain (H : String → String) (steps : List CommitStep)
    (hsteps : ∀ st ∈ steps, stepOK H st = true)
    (hids : ∀ i ∈ runIds H steps, idOK i = true)
    (hnodup : (runIds H steps).Nodup) :
    (logWalk (runZit H steps) steps.length (getCurrentHead (runZit H steps))).length =
      steps.length ∧
    linked (logWalk (runZit H steps) steps.length (getCurrentHead (runZit H steps))) ∧
    (steps ≠ [] →
      ((logWalk (runZit H steps) steps.length (getCurrentHead (runZit H steps))).filter
        (fun pr => pr.2.parent.isNone)).length = 1) ∧
    (∀ fuel, steps.length ≤ fuel →
      logWalk (runZit H steps) fuel (getCurrentHead (runZit H steps)) =
        logWalk (runZit H steps) steps.length (getCurrentHead (runZit H steps))) := by
  have hbase : RunInv initState [] := by
    refine ⟨?_, rfl, trivial, ?_, ?_⟩
    · show getCurrentHead initState = none
      decide
    · intro pr h
      simp at h
    · intro pr h
      simp at h
  have hinv0 := runInv_steps H steps initState [] hbase hsteps hids (by simpa using hnodup)
  have hinv : RunInv (runZit H steps) ((runChainFrom H initState steps).reverse) := by
    show RunInv (List.foldl (runStep H) initState steps) _
    simpa using hinv0
  have hlen : ((runChainFrom H initState steps).reverse).length = steps.length := by
    rw [List.length_reverse, runChainFrom_length]
  have hwalk : ∀ fuel, steps.length ≤ fuel →
      logWalk (runZit H steps) fuel (getCurrentHead (runZit H steps)) =
        (runChainFrom H initState steps).reverse := by
    intro fuel hf
    rw [hinv.head_eq]
    exact logWalk_chain _ _ hinv.links hinv.stored fuel (by rw [hlen]; exact hf)
  have hw0 := hwalk steps.length le_rfl
  refine ⟨?_, ?_, ?_, ?_⟩
  · rw [hw0, hlen]
  · rw [hw0]
    exact hinv.links
  · intro hne
    rw [hw0]
    refine linked_parent_none_count _ hinv.links ?_
    intro hnil
    apply hne
    rw [hnil] at hlen
    simp only [List.length_nil] at hlen
    exact List.length_eq_zero.mp hlen.symm
  · intro fuel hf
    rw [hwalk fuel hf, hw0]

/-- C7 witness: two sequential commits from a fresh repository, under a
hash that keeps the two ids distinct, walk back as a two-record chain with a
single parentless root, stable under extra fuel. -/
theorem zitC7_witness :
    (logWalk (runZit demoHash [CommitStep.mk [("a.txt", "hello")] "first" "t1",
        CommitStep.mk [("a.txt", "hello world")] "second" "t2"]) 2
      (getCurrentHead (runZit demoHash [CommitStep.mk [("a.txt", "hello")] "first" "t1",
        CommitStep.mk [("a.txt", "hello world")] "second" "t2"]))).length = 2 ∧
    linked (logWalk (runZit demoHash [CommitStep.mk [("a.txt", "hello")] "first" "t1",
        CommitStep.mk [("a.txt", "hello world")] "second" "t2"]) 2
      (getCurrentHead (runZit demoHash [CommitStep.mk [("a.txt", "hello")] "first" "t1",
        CommitStep.mk [("a.txt", "hello world")] "second" "t2"]))) ∧
    ([CommitStep.mk [("a.txt", "hello")] "first" "t1",
        CommitStep.mk [("a.txt", "hello world")] "second" "t2"] ≠
        ([] : List CommitStep) →
      ((logWalk (runZit demoHash [CommitStep.mk [("a.txt", "hello")] "first" "t1",
          CommitStep.mk [("a.txt", "hello world")] "second" "t2"]) 2
        (getCurrentHead (runZit demoHash [CommitStep.mk [("a.txt", "hello")] "first" "t1",
          CommitStep.mk [("a.txt", "hello world")] "second" "t2"]))).filter
        (fun pr => pr.2.parent.isNone)).length = 1) ∧
    (∀ fuel, 2 ≤ fuel →
      logWalk (runZit demoHash [CommitStep.mk [("a.txt", "hello")] "first" "t1",
          CommitStep.mk [("a.txt", "hello world")] "second" "t2"]) fuel
        (getCurrentHead (runZit demoHash [CommitStep.mk [("a.txt", "hello")] "first" "t1",
          CommitStep.mk [("a.txt", "hello world")] "second" "t2"])) =
      logWalk (runZit demoHash [CommitStep.mk [("a.txt", "hello")] "first" "t1",
          CommitStep.mk [("a.txt", "hello world")] "second" "t2"]) 2
        (getCurrentHead (runZit demoHash [CommitStep.mk [("a.txt", "hello")] "first" "t1",
          CommitStep.mk [("a.txt", "hello world")] "second" "t2"]))) :=
  zitC7_parent_chain demoHash
    [CommitStep.mk [("a.txt", "hello")] "first" "t1",
     CommitStep.mk [("a.txt", "hello world")] "second" "t2"]
    (by decide) (by decide) (by decide)

end Zit
